import Mathlib

/-!
# The `lexicos` package (fnl/dictionary): the state graph and the hash-map trie

A shallow embedding of `state.go`, of `hash.go` and of the `Lexicon` interface of
`lexicon.go`.

Go values are modelled as follows.

* A `rune` is an `Int` (Go's `int32`).
* A `*state` is an address, a `Nat`.  Address `0` is `&dfa.root`; address
  `n + 1` is the `n`-th state handed out by `new(state)`.  A `graph` carries
  the root together with the states allocated so far, so that the in-place
  updates of the Go code become explicit updates of the `graph` value.
* A `map[rune]*state` is `Option (List (rune × Nat))`: `none` is the nil map
  (the zero value of the field, as left by `new(state)`), `some l` a map made
  by `make`.  Keys of `l` are unique, and a new key is put at the end of `l`.
* Go leaves the order in which `range` visits a map open, and it changes from
  call to call.  `state.StringBy` takes that order as an argument, a
  `RangeOrder`; `state.String` is the run in which every map is visited in
  insertion order, the order in which the expected strings of `state_test.go`
  are written.
* A call that may panic returns a `Result`.  Recursion that follows pointers
  takes a fuel argument; running out of fuel is the outcome `diverge`.
-/

namespace Lexicos

/-- A Go `rune`. -/
abbrev rune := Int

/-- The transition table of a state: `none` is Go's nil map; a `*state` is an address. -/
abbrev transMap := Option (List (rune × Nat))

/-- Outcome of a call: a normal return, a run-time panic, or fuel exhausted. -/
inductive Result (α : Type) where
  | ret (a : α)
  | panic
  | diverge
deriving DecidableEq

/-- The Go struct `state`. -/
structure state where
  final : Bool
  transitions : transMap
deriving DecidableEq

/-- The Go struct `graph`, with the states its pointers refer to. -/
structure graph where
  root : state
  heap : List state
deriving DecidableEq

/-- The value `new(state)` points to: not final, nil transition map. -/
def newState : state := ⟨false, none⟩

/-- Read through a pointer: `*p`. -/
def deref (dfa : graph) (p : Nat) : state :=
  (dfa.root :: dfa.heap).getD p newState

/-- Write through a pointer: `*p = s`. -/
def store (dfa : graph) (p : Nat) (s : state) : graph :=
  match p with
  | 0 => { dfa with root := s }
  | n + 1 => { dfa with heap := dfa.heap.set n s }

/-- The call `new(state)`: the fresh address and the extended memory. -/
def alloc (dfa : graph) : Nat × graph :=
  (dfa.heap.length + 1, { dfa with heap := dfa.heap ++ [newState] })

/-- Go's `len(m)` for a map. -/
def len (m : transMap) : Nat :=
  match m with
  | none => 0
  | some l => l.length

/-- Go's `v, exists := m[k]`: `none` when the key is missing (or the map nil). -/
def mapGet (m : transMap) (k : rune) : Option Nat :=
  match m with
  | none => none
  | some l => l.lookup k

/-- Replace the value of key `k` in an entry list, keeping its position. -/
def replaceEntry (k : rune) (v : Nat) : List (rune × Nat) → List (rune × Nat)
  | [] => []
  | (k', v') :: l => if k' = k then (k, v) :: l else (k', v') :: replaceEntry k v l

/-- Go's `m[k] = v`: `none` is the panic on assigning into a nil map. -/
def mapSet (m : transMap) (k : rune) (v : Nat) : Option transMap :=
  match m with
  | none => none
  | some l =>
    match l.lookup k with
    | some _ => some (some (replaceEntry k v l))
    | none => some (some (l ++ [(k, v)]))

/-- The entries of a map, in the order in which their keys were first set. -/
def entries (m : transMap) : List (rune × Nat) :=
  match m with
  | none => []
  | some l => l

/-- The conversion `[]rune(word)` of a string: its code points.  (A Go string that is
not valid UTF-8 converts to the runes of the string with U+FFFD for each bad byte.) -/
def runes (word : String) : List rune :=
  word.toList.map (fun c => (c.toNat : Int))

/-- The character the verb `%c` prints for a rune. -/
def runeChar (k : rune) : Char :=
  if 0 ≤ k ∧ k.toNat.isValidChar then Char.ofNat k.toNat else Char.ofNat 0xFFFD

/-- The function `NewGraph`: a root with an empty (made) map. -/
def NewGraph : graph :=
  { root := { final := false, transitions := some [] }, heap := [] }

/-- Collect the results of a list of calls, in order. -/
def collect : List (Result String) → Result (List String)
  | [] => .ret []
  | r :: rs =>
    match r with
    | .ret a =>
      match collect rs with
      | .ret as => .ret (a :: as)
      | .panic => .panic
      | .diverge => .diverge
    | .panic => .panic
    | .diverge => .diverge

/-- The order in which one call of `String()` ranges over the maps: for the address of a
state and the entries of its map, the entries in the order in which they are visited. -/
abbrev RangeOrder := Nat → List (rune × Nat) → List (rune × Nat)

/-- An order Go permits: every map is visited entry by entry, each entry once. -/
def permitted (order : RangeOrder) : Prop :=
  ∀ (vertex : Nat) (l : List (rune × Nat)), (order vertex l).Perm l

/-- The method `(vertex *state) String()`; `order` is the order in which its `range`
loop visits the transitions. -/
def state.StringBy (order : RangeOrder) : Nat → graph → Nat → Result String
  | 0, _, _ => .diverge
  | fuel + 1, dfa, vertex =>
    let idx := len (deref dfa vertex).transitions
    if idx = 0 then .ret ""
    else
      let str := collect ((order vertex (entries (deref dfa vertex).transitions)).map
        (fun kv =>
          match state.StringBy order fuel dfa kv.2 with
          | .ret sub =>
            if (deref dfa kv.2).final then
              .ret (String.singleton (runeChar kv.1) ++ "$" ++ sub)
            else
              .ret (String.singleton (runeChar kv.1) ++ sub)
          | .panic => .panic
          | .diverge => .diverge))
      match str with
      | .ret strs =>
        if idx = 1 then
          match strs[0]? with
          | some s0 => .ret s0
          | none => .panic
        else .ret ("(" ++ String.intercalate "|" strs ++ ")")
      | .panic => .panic
      | .diverge => .diverge

/-- The method `(dfa *graph) String()`, for a given order of `range`. -/
def graph.StringBy (dfa : graph) (order : RangeOrder) : Result String :=
  state.StringBy order (dfa.heap.length + 1) dfa 0

/-- The method `(vertex *state) String()` in the run in which `range` visits every map in
insertion order: `state.StringBy` at the order that leaves the entries as they are. -/
def state.String : Nat → graph → Nat → Result String
  | 0, _, _ => .diverge
  | fuel + 1, dfa, vertex =>
    let idx := len (deref dfa vertex).transitions
    if idx = 0 then .ret ""
    else
      let str := collect ((entries (deref dfa vertex).transitions).map (fun kv =>
        match state.String fuel dfa kv.2 with
        | .ret sub =>
          if (deref dfa kv.2).final then
            .ret (String.singleton (runeChar kv.1) ++ "$" ++ sub)
          else
            .ret (String.singleton (runeChar kv.1) ++ sub)
        | .panic => .panic
        | .diverge => .diverge))
      match str with
      | .ret strs =>
        if idx = 1 then
          match strs[0]? with
          | some s0 => .ret s0
          | none => .panic
        else .ret ("(" ++ String.intercalate "|" strs ++ ")")
      | .panic => .panic
      | .diverge => .diverge

/-- The method `(dfa *graph) String()` in the run in which `range` visits every map in
insertion order. -/
def graph.String (dfa : graph) : Result String :=
  state.String (dfa.heap.length + 1) dfa 0

mutual
/-- The method `(s *state) setState(word, idx)`. -/
def setState : Nat → graph → Nat → List rune → Nat → Result (Bool × graph)
  | 0, _, _, _, _ => .diverge
  | fuel + 1, dfa, s, word, idx =>
    let idx := idx + 1
    if word.length > idx then
      let dfa :=
        if len (deref dfa s).transitions = 0 then
          store dfa s { deref dfa s with transitions := some [] }
        else dfa
      addWord fuel dfa s word idx
    else
      let existed := (deref dfa s).final
      .ret (!existed, store dfa s { deref dfa s with final := true })
/-- The method `(s *state) addWord(word, idx)`. -/
def addWord : Nat → graph → Nat → List rune → Nat → Result (Bool × graph)
  | 0, _, _, _, _ => .diverge
  | fuel + 1, dfa, s, word, idx =>
    match word[idx]? with
    | none => .panic
    | some c =>
      match mapGet (deref dfa s).transitions c with
      | some succ => setState fuel dfa succ word idx
      | none =>
        let (succ, dfa) := alloc dfa
        match mapSet (deref dfa s).transitions c succ with
        | none => .panic
        | some m => setState fuel (store dfa s { deref dfa s with transitions := m }) succ word idx
end

/-- The loop of `commonPrefix`; `n` bounds the symbols left, `len(word) - idx`. -/
def commonPrefixLoop (dfa : graph) (word : List rune) : Nat → Nat → Nat → Nat × Nat
  | 0, s, idx => (s, idx)
  | n + 1, s, idx =>
    if len (deref dfa s).transitions > 0 ∧ word.length > idx then
      match word[idx]? with
      | none => (s, idx)
      | some c =>
        match mapGet (deref dfa s).transitions c with
        | some next => commonPrefixLoop dfa word n next (idx + 1)
        | none => (s, idx)
    else (s, idx)

/-- The method `(dfa *graph) commonPrefix(word, idx)`. -/
def commonPrefix (dfa : graph) (word : List rune) (idx : Nat) : Nat × Nat :=
  commonPrefixLoop dfa word (word.length - idx) 0 idx

/-- The method `(dfa *graph) replaceOrRegister(s)`: it reads, and changes nothing. -/
def replaceOrRegister : Nat → graph → Nat → Result Unit
  | 0, _, _ => .diverge
  | fuel + 1, dfa, s =>
    let t := len (deref dfa s).transitions
    let keys := ((entries (deref dfa s).transitions).map (fun kv => kv.1)).insertionSort (· ≤ ·)
    if t = 0 then .panic
    else
      match keys[t - 1]? with
      | none => .panic
      | some k =>
        match mapGet (deref dfa s).transitions k with
        | none => .panic
        | some s' =>
          if len (deref dfa s').transitions > 0 then replaceOrRegister fuel dfa s'
          else .ret ()

/-- The method `(dfa *graph) Insert(word)`. -/
def Insert (dfa : graph) (word : String) : Result (Bool × graph) :=
  let symbols := runes word
  let si := commonPrefix dfa symbols 0
  let r :=
    if len (deref dfa si.1).transitions > 0 then
      replaceOrRegister (dfa.heap.length + 1) dfa si.1
    else .ret ()
  match r with
  | .ret _ =>
    if symbols.length > si.2 then addWord (2 * symbols.length) dfa si.1 symbols si.2
    else .ret (false, dfa)
  | .panic => .panic
  | .diverge => .diverge

/-- The method `(dfa *graph) Delete(word)`. -/
def Delete (dfa : graph) (word : String) : Bool × graph :=
  (false, dfa)

/-- The method `(dfa *graph) Contains(word)`. -/
def Contains (dfa : graph) (word : String) : Bool :=
  false

/-- The method `(dfa *graph) Words(phrase, offset)`; Go's nil slice is `[]`. -/
def Words (dfa : graph) (phrase : String) (offset : Int) : List String :=
  []

/-- The method `(dfa *graph) Lookup(prefix)`; Go's nil slice is `[]`. -/
def Lookup (dfa : graph) (pfx : String) : List String :=
  []

/-- Insert the words in order into `dfa`; the results of the calls, and the graph. -/
def insertAll : graph → List String → Result (List Bool × graph)
  | dfa, [] => .ret ([], dfa)
  | dfa, w :: ws =>
    match Insert dfa w with
    | .ret (b, dfa') =>
      match insertAll dfa' ws with
      | .ret (bs, dfa'') => .ret (b :: bs, dfa'')
      | .panic => .panic
      | .diverge => .diverge
    | .panic => .panic
    | .diverge => .diverge

/-- Follow the transitions labelled by the symbols of `u`, starting at `p`. -/
def walk (dfa : graph) : Nat → List rune → Option Nat
  | p, [] => some p
  | p, c :: u =>
    match mapGet (deref dfa p).transitions c with
    | some q => walk dfa q u
    | none => none

/-- The word is accepted: its path from the root exists and ends in a final state. -/
def accepts (dfa : graph) (word : String) : Bool :=
  match walk dfa 0 (runes word) with
  | some p => (deref dfa p).final
  | none => false

/-- Every stored pointer refers to an allocated state, allocated after its parent, and
no map holds a key twice. -/
def WF (dfa : graph) : Prop :=
  ∀ p, p ≤ dfa.heap.length →
    (∀ e ∈ entries (deref dfa p).transitions, p < e.2 ∧ e.2 ≤ dfa.heap.length) ∧
    ((entries (deref dfa p).transitions).map (fun kv => kv.1)).Nodup

/-- The graphs obtained from `NewGraph()` by completed `Insert` and `Delete` calls. -/
inductive Reachable : graph → Prop where
  | new : Reachable NewGraph
  | insert (dfa : graph) (word : String) (b : Bool) (dfa' : graph) :
      Reachable dfa → Insert dfa word = .ret (b, dfa') → Reachable dfa'
  | delete (dfa : graph) (word : String) :
      Reachable dfa → Reachable (Delete dfa word).2

/-- The graph `dfa'` has every state and every transition of `dfa`. -/
def Keeps (dfa dfa' : graph) : Prop :=
  dfa.heap.length ≤ dfa'.heap.length ∧
  ∀ p, p ≤ dfa.heap.length → ∀ k q,
    mapGet (deref dfa p).transitions k = some q →
    mapGet (deref dfa' p).transitions k = some q

/-- Run `f` on the value a call returned. -/
def Result.bind {α β : Type} (r : Result α) (f : α → Result β) : Result β :=
  match r with
  | .ret a => f a
  | .panic => .panic
  | .diverge => .diverge

instance : Monad Result where
  pure := Result.ret
  bind := Result.bind

/-- Transitions in ascending order of their symbols. -/
def ascending (l : List (rune × Nat)) : List (rune × Nat) :=
  l.insertionSort (fun a b => a.1 ≤ b.1)

/-! ## `hash.go`: the hash-map representation

A `uint32` and a `uint64` are `Nat`s below `2^32` and `2^64`; arithmetic on them wraps.
A `map[uint64]uint32` is `Option (List (Nat × Nat))`, `none` being the nil map. -/

/-- The Go struct `Trie`. -/
structure Trie where
  stateCount : Nat
  transitions : Option (List (Nat × Nat))
  finalStates : Option (List (Nat × Bool))
deriving DecidableEq

/-- The function `New`: count zero, two made maps. -/
def New : Trie :=
  { stateCount := 0, transitions := some [], finalStates := some [] }

/-- The function `makeKey(state, label)`: `uint64(state)`, shifted left by 32 bits, plus
`uint64(label)`; the conversion of the `int32` label extends its sign, and shift and sum
wrap at `2^64`. -/
def makeKey (state : Nat) (label : rune) : Nat :=
  let key := state
  let key := key * 4294967296 % 18446744073709551616
  (key + (label % 18446744073709551616).toNat) % 18446744073709551616

/-- The method `(t *Trie) Create()`: the count before the call, and the count stepped
(wrapping at `2^32`); a panic when the stepped count is zero. -/
def Create (t : Trie) : Result (Nat × Trie) :=
  let state := t.stateCount
  let t := { t with stateCount := (t.stateCount + 1) % 4294967296 }
  if 0 = t.stateCount then .panic
  else .ret (state, t)

/-- Go's `m[k] = v` on the entries of a made map: replace in place, or add at the end. -/
def putEntry (k v : Nat) : List (Nat × Nat) → List (Nat × Nat)
  | [] => [(k, v)]
  | (k', v') :: l => if k' = k then (k, v) :: l else (k', v') :: putEntry k v l

/-- The method `(t *Trie) Add(srcState, label, dstState)`; a panic on a nil map. -/
def Add (t : Trie) (srcState : Nat) (label : rune) (dstState : Nat) : Result Trie :=
  match t.transitions with
  | none => .panic
  | some l => .ret { t with transitions := some (putEntry (makeKey srcState label) dstState l) }

/-- The method `(t *Trie) Walk(srcState, label)`: a missing key gives `(0, false)`. -/
def Walk (t : Trie) (srcState : Nat) (label : rune) : Nat × Bool :=
  match t.transitions with
  | none => (0, false)
  | some l =>
    match l.lookup (makeKey srcState label) with
    | some dstState => (dstState, true)
    | none => (0, false)

/-- The tries obtained from `New()` by completed `Create` and `Add` calls. -/
inductive TrieReachable : Trie → Prop where
  | new : TrieReachable New
  | create (t : Trie) (state : Nat) (t' : Trie) :
      TrieReachable t → Create t = .ret (state, t') → TrieReachable t'
  | add (t : Trie) (srcState : Nat) (label : rune) (dstState : Nat) (t' : Trie) :
      TrieReachable t → Add t srcState label dstState = .ret t' → TrieReachable t'

/-- Call `Create` `n` times in a row: the states handed out, in order, and the trie. -/
def createN : Nat → Trie → Result (List Nat × Trie)
  | 0, t => .ret ([], t)
  | n + 1, t =>
    match Create t with
    | .ret (state, t') =>
      match createN n t' with
      | .ret (states, t'') => .ret (state :: states, t'')
      | .panic => .panic
      | .diverge => .diverge
    | .panic => .panic
    | .diverge => .diverge

/-- The sequence is accepted: its path from the root exists and ends in a final state. -/
def acceptsSeq (dfa : graph) (u : List rune) : Bool :=
  match walk dfa 0 u with
  | some p => (deref dfa p).final
  | none => false

/-- The graph `dfa'` is `dfa` with a chain of fresh states for the symbols `cs` hung below
the state `s`, which had no transition for the first of them: `s` gains one transition,
each fresh state but the last has the one transition to the next, the last is a final
leaf, and every other state is as it was. -/
def Extended (dfa dfa' : graph) (s : Nat) (cs : List rune) : Prop :=
  ∃ l c, (deref dfa s).transitions = some l ∧ cs[0]? = some c ∧ l.lookup c = none ∧
    dfa'.heap.length = dfa.heap.length + cs.length ∧
    (∀ p, p ≤ dfa.heap.length → p ≠ s → deref dfa' p = deref dfa p) ∧
    deref dfa' s = ⟨(deref dfa s).final, some (l ++ [(c, dfa.heap.length + 1)])⟩ ∧
    (∀ j, 1 ≤ j → j < cs.length → ∃ c', cs[j]? = some c' ∧
      deref dfa' (dfa.heap.length + j) = ⟨false, some [(c', dfa.heap.length + j + 1)]⟩) ∧
    deref dfa' (dfa.heap.length + cs.length) = ⟨true, none⟩

/-- No state is shared: a state is the target of at most one transition. -/
def Unshared (dfa : graph) : Prop :=
  ∀ p₁ p₂, p₁ ≤ dfa.heap.length → p₂ ≤ dfa.heap.length →
    ∀ e₁ ∈ entries (deref dfa p₁).transitions, ∀ e₂ ∈ entries (deref dfa p₂).transitions,
      e₁.2 = e₂.2 → p₁ = p₂ ∧ e₁.1 = e₂.1

/-- No allocated state is a dead end: it is final or has a transition. -/
def NoDead (dfa : graph) : Prop :=
  ∀ p, 1 ≤ p → p ≤ dfa.heap.length →
    (deref dfa p).final = true ∨ 0 < len (deref dfa p).transitions

/-- The signature of a state: its final flag and, per transition, the symbol and the
signature of the child. -/
inductive Sig where
  | node (final : Bool) (children : List (rune × Sig)) : Sig


/-- Collect the signatures of the children, if all of them were computed. -/
def collectSigs : List (rune × Option Sig) → Option (List (rune × Sig))
  | [] => some []
  | (k, o) :: rest =>
    match o, collectSigs rest with
    | some g, some gs => some ((k, g) :: gs)
    | _, _ => none

/-- The signature of the state at `p`, in the words of the specification: the final flag
and the list of (symbol, signature of the child) sorted by symbol; `none` when the fuel
runs out. -/
def signature : Nat → graph → Nat → Option Sig
  | 0, _, _ => none
  | fuel + 1, dfa, p =>
    match collectSigs ((ascending (entries (deref dfa p).transitions)).map
        (fun kv => (kv.1, signature fuel dfa kv.2))) with
    | some children => some (Sig.node (deref dfa p).final children)
    | none => none

/-! ## Memory: reading after writing and allocating -/

theorem store_heap_length (dfa : graph) (p : Nat) (s : state) :
    (store dfa p s).heap.length = dfa.heap.length := by
  cases p <;> simp [store]

theorem deref_store (dfa : graph) (p q : Nat) (s : state) (hp : p ≤ dfa.heap.length) :
    deref (store dfa p s) q = if q = p then s else deref dfa q := by
  cases p with
  | zero =>
    cases q with
    | zero => simp [store, deref]
    | succ m => simp [store, deref]
  | succ n =>
    cases q with
    | zero => simp [store, deref]
    | succ m =>
      have hn : n < dfa.heap.length := hp
      simp only [store, deref, List.getD_cons_succ, Nat.succ.injEq]
      by_cases h : m = n
      · subst h
        simp [List.getD_eq_getElem?_getD, List.getElem?_set, hn]
      · have h' : ¬ n = m := fun e => h e.symm
        simp [List.getD_eq_getElem?_getD, List.getElem?_set, h, h']

theorem deref_store_same (dfa : graph) (p : Nat) (s : state) (hp : p ≤ dfa.heap.length) :
    deref (store dfa p s) p = s := by
  rw [deref_store dfa p p s hp]; simp

theorem deref_store_other (dfa : graph) (p q : Nat) (s : state) (hp : p ≤ dfa.heap.length)
    (hq : q ≠ p) : deref (store dfa p s) q = deref dfa q := by
  rw [deref_store dfa p q s hp]; simp [hq]

theorem alloc_fst (dfa : graph) : (alloc dfa).1 = dfa.heap.length + 1 := rfl

theorem alloc_heap_length (dfa : graph) :
    (alloc dfa).2.heap.length = dfa.heap.length + 1 := by
  simp [alloc]

theorem deref_alloc_old (dfa : graph) (q : Nat) (hq : q ≤ dfa.heap.length) :
    deref (alloc dfa).2 q = deref dfa q := by
  cases q with
  | zero => simp [alloc, deref]
  | succ m =>
    have hm : m < dfa.heap.length := hq
    simp only [alloc, deref, List.getD_cons_succ]
    simp [List.getD_eq_getElem?_getD, List.getElem?_append_left hm]

theorem deref_alloc_new (dfa : graph) :
    deref (alloc dfa).2 (dfa.heap.length + 1) = newState := by
  simp [alloc, deref, List.getD_eq_getElem?_getD]

/-! ## Maps -/

theorem lookup_mem {k : rune} {q : Nat} :
    ∀ {l : List (rune × Nat)}, l.lookup k = some q → (k, q) ∈ l := by
  intro l
  induction l with
  | nil => intro h; simp [List.lookup] at h
  | cons e l ih =>
    obtain ⟨k', v'⟩ := e
    intro h
    by_cases hk : k = k'
    · subst hk
      simp [List.lookup] at h
      simp [h]
    · have hb : (k == k') = false := by simpa using hk
      simp [List.lookup, hb] at h
      exact List.mem_cons_of_mem _ (ih h)

theorem mapGet_mem {m : transMap} {k : rune} {q : Nat} (h : mapGet m k = some q) :
    (k, q) ∈ entries m := by
  cases m with
  | none => simp [mapGet] at h
  | some l => exact lookup_mem h

theorem mapGet_len_pos {m : transMap} {k : rune} {q : Nat} (h : mapGet m k = some q) :
    0 < len m := by
  cases m with
  | none => simp [mapGet] at h
  | some l =>
    cases l with
    | nil => simp [mapGet, List.lookup] at h
    | cons e l => simp [len]

theorem lookup_append_some {k : rune} {q : Nat} (l l' : List (rune × Nat))
    (h : l.lookup k = some q) : (l ++ l').lookup k = some q := by
  induction l with
  | nil => simp [List.lookup] at h
  | cons e l ih =>
    obtain ⟨k', v'⟩ := e
    by_cases hk : k = k'
    · subst hk
      simp [List.lookup] at h ⊢
      exact h
    · have hb : (k == k') = false := by simpa using hk
      simp [List.lookup, hb] at h ⊢
      exact ih h

theorem lookup_append_none {k : rune} (l l' : List (rune × Nat))
    (h : l.lookup k = none) : (l ++ l').lookup k = l'.lookup k := by
  induction l with
  | nil => rfl
  | cons e l ih =>
    obtain ⟨k', v'⟩ := e
    by_cases hk : k = k'
    · subst hk
      simp [List.lookup] at h
    · have hb : (k == k') = false := by simpa using hk
      simp only [List.lookup, hb, List.cons_append] at h ⊢
      exact ih h

theorem lookup_of_mem_keys {k : rune} :
    ∀ {l : List (rune × Nat)}, k ∈ l.map (fun kv => kv.1) → ∃ q, l.lookup k = some q := by
  intro l
  induction l with
  | nil => intro h; simp at h
  | cons e l ih =>
    obtain ⟨k', v'⟩ := e
    intro h
    by_cases hk : k = k'
    · subst hk
      exact ⟨v', by simp [List.lookup]⟩
    · have hb : (k == k') = false := by simpa using hk
      simp only [List.map_cons, List.mem_cons, hk, false_or] at h
      obtain ⟨q, hq⟩ := ih h
      exact ⟨q, by simp only [List.lookup, hb]; exact hq⟩

/-! ## Walks -/

theorem walk_append (dfa : graph) (u v : List rune) :
    ∀ p, walk dfa p (u ++ v) = (walk dfa p u).bind (fun q => walk dfa q v) := by
  induction u with
  | nil => intro p; simp [walk]
  | cons c u ih =>
    intro p
    simp only [List.cons_append, walk]
    cases h : mapGet (deref dfa p).transitions c with
    | none => simp
    | some q => simp [ih q]

theorem walk_valid {dfa : graph} (hwf : WF dfa) (u : List rune) :
    ∀ p q, p ≤ dfa.heap.length → walk dfa p u = some q → q ≤ dfa.heap.length := by
  induction u with
  | nil =>
    intro p q hp h
    simp only [walk, Option.some.injEq] at h
    subst h
    exact hp
  | cons c u ih =>
    intro p q hp h
    simp only [walk] at h
    cases hg : mapGet (deref dfa p).transitions c with
    | none => simp [hg] at h
    | some r =>
      simp only [hg] at h
      exact ih r q ((hwf p hp).1 _ (mapGet_mem hg)).2 h

/-- One graph keeps every transition of another. -/
theorem walk_mono {dfa dfa' : graph} (hwf : WF dfa)
    (hm : ∀ p, p ≤ dfa.heap.length → ∀ k q,
      mapGet (deref dfa p).transitions k = some q →
      mapGet (deref dfa' p).transitions k = some q) (u : List rune) :
    ∀ p q, p ≤ dfa.heap.length → walk dfa p u = some q → walk dfa' p u = some q := by
  induction u with
  | nil => intro p q _ h; simpa [walk] using h
  | cons c u ih =>
    intro p q hp h
    simp only [walk] at h ⊢
    cases hg : mapGet (deref dfa p).transitions c with
    | none => simp [hg] at h
    | some r =>
      simp only [hg] at h
      rw [hm p hp c r hg]
      exact ih r q ((hwf p hp).1 _ (mapGet_mem hg)).2 h

theorem Keeps_trans {a b c : graph} (h₁ : Keeps a b) (h₂ : Keeps b c) : Keeps a c :=
  ⟨le_trans h₁.1 h₂.1, fun p hp k q h => h₂.2 p (le_trans hp h₁.1) k q (h₁.2 p hp k q h)⟩

theorem drop_of_getElem? {word : List rune} {idx : Nat} {c : rune} (h : word[idx]? = some c) :
    word.drop idx = c :: word.drop (idx + 1) := by
  obtain ⟨hlt, hc⟩ := List.getElem?_eq_some_iff.mp h
  rw [List.drop_eq_getElem_cons hlt, hc]

theorem setState_final_step (dfa : graph) (s : Nat) (hs : s ≤ dfa.heap.length) (hwf : WF dfa)
    (hnew : deref dfa s = newState) :
    WF (store dfa s { deref dfa s with final := true }) ∧
    Keeps dfa (store dfa s { deref dfa s with final := true }) := by
  refine ⟨?_, ?_, ?_⟩
  · intro p hp
    rw [store_heap_length] at hp ⊢
    by_cases hps : p = s
    · subst hps
      rw [deref_store_same _ _ _ hs, hnew]
      simp [newState, entries]
    · rw [deref_store_other _ _ _ _ hs hps]
      exact hwf p hp
  · rw [store_heap_length]
  · intro p hp k q h
    by_cases hps : p = s
    · subst hps
      rw [hnew] at h
      simp [newState, mapGet] at h
    · rw [deref_store_other _ _ _ _ hs hps]
      exact h

theorem setState_make_step (dfa : graph) (s : Nat) (hs : s ≤ dfa.heap.length) (hwf : WF dfa)
    (hnew : deref dfa s = newState) :
    WF (store dfa s { deref dfa s with transitions := some [] }) ∧
    Keeps dfa (store dfa s { deref dfa s with transitions := some [] }) := by
  refine ⟨?_, ?_, ?_⟩
  · intro p hp
    rw [store_heap_length] at hp ⊢
    by_cases hps : p = s
    · subst hps
      rw [deref_store_same _ _ _ hs]
      simp [entries]
    · rw [deref_store_other _ _ _ _ hs hps]
      exact hwf p hp
  · rw [store_heap_length]
  · intro p hp k q h
    by_cases hps : p = s
    · subst hps
      rw [hnew] at h
      simp [newState, mapGet] at h
    · rw [deref_store_other _ _ _ _ hs hps]
      exact h

/-- The first half of the `else` branch of `addWord`: allocate and link. -/
theorem addWord_link_step (dfa : graph) (s : Nat) (c : rune) (l : List (rune × Nat))
    (hs : s ≤ dfa.heap.length) (hwf : WF dfa)
    (hl : (deref dfa s).transitions = some l) (hc : l.lookup c = none) :
    ∀ dfa₂, dfa₂ = store (alloc dfa).2 s
      { deref (alloc dfa).2 s with transitions := some (l ++ [(c, dfa.heap.length + 1)]) } →
    WF dfa₂ ∧ Keeps dfa dfa₂ ∧ dfa₂.heap.length = dfa.heap.length + 1 ∧
    deref dfa₂ (dfa.heap.length + 1) = newState ∧
    mapGet (deref dfa₂ s).transitions c = some (dfa.heap.length + 1) := by
  intro dfa₂ hdef
  have hs' : s ≤ (alloc dfa).2.heap.length := by rw [alloc_heap_length]; omega
  have hlen : dfa₂.heap.length = dfa.heap.length + 1 := by
    rw [hdef, store_heap_length, alloc_heap_length]
  have hds : deref dfa₂ s =
      { deref (alloc dfa).2 s with transitions := some (l ++ [(c, dfa.heap.length + 1)]) } := by
    rw [hdef]; exact deref_store_same _ _ _ hs'
  have hother : ∀ p, p ≤ dfa.heap.length → p ≠ s → deref dfa₂ p = deref dfa p := by
    intro p hp hps
    rw [hdef]
    rw [deref_store_other _ _ _ _ hs' hps, deref_alloc_old _ _ hp]
  have hnew : deref dfa₂ (dfa.heap.length + 1) = newState := by
    rw [hdef, deref_store_other _ _ _ _ hs' (by omega), deref_alloc_new]
  refine ⟨?_, ⟨by omega, ?_⟩, hlen, hnew, ?_⟩
  · intro p hp
    rw [hlen] at hp ⊢
    by_cases hps : p = s
    · subst hps
      have hold := hwf p hs
      rw [hl] at hold
      simp only [entries] at hold
      rw [hds]
      simp only [entries]
      constructor
      · intro e he
        simp only [List.mem_append, List.mem_singleton] at he
        rcases he with he | he
        · have := hold.1 e he
          omega
        · subst he
          simp only
          omega
      · have hc' : c ∉ l.map (fun kv => kv.1) := by
          intro hmem
          obtain ⟨q, hq⟩ := lookup_of_mem_keys hmem
          rw [hc] at hq
          cases hq
        rw [List.map_append, List.nodup_append]
        refine ⟨hold.2, by simp, ?_⟩
        intro a ha hb
        simp only [List.map_cons, List.map_nil, List.mem_singleton] at hb
        subst hb
        exact hc' ha
    · by_cases hpn : p = dfa.heap.length + 1
      · subst hpn
        rw [hnew]
        simp [newState, entries]
      · have hp' : p ≤ dfa.heap.length := by omega
        rw [hother p hp' hps]
        refine ⟨fun e he => ?_, (hwf p hp').2⟩
        have := (hwf p hp').1 e he
        omega
  · intro p hp k q h
    by_cases hps : p = s
    · subst hps
      rw [hds]
      rw [hl] at h
      simp only [mapGet] at h ⊢
      exact lookup_append_some _ _ h
    · rw [hother p hp hps]
      exact h
  · rw [hds]
    simp only [mapGet]
    rw [lookup_append_none _ _ hc]
    simp [List.lookup]

/-- Adding a word below a state that lacks the next symbol (`addWord`), and setting up a
state fresh from `new(state)` (`setState`): the call reports a new word, adds the path of
the remaining symbols, which ends in a final leaf, and keeps what was there. -/
theorem addWord_setState_fresh (word : List rune) : ∀ fuel : Nat,
    (∀ (dfa : graph) (s idx : Nat) (b : Bool) (dfa' : graph),
      WF dfa → s ≤ dfa.heap.length →
      (∀ c, word[idx]? = some c → mapGet (deref dfa s).transitions c = none) →
      addWord fuel dfa s word idx = .ret (b, dfa') →
      b = true ∧ WF dfa' ∧ Keeps dfa dfa' ∧
      ∃ last, walk dfa' s (word.drop idx) = some last ∧ deref dfa' last = ⟨true, none⟩) ∧
    (∀ (dfa : graph) (s idx : Nat) (b : Bool) (dfa' : graph),
      WF dfa → s ≤ dfa.heap.length → deref dfa s = newState →
      setState fuel dfa s word idx = .ret (b, dfa') →
      b = true ∧ WF dfa' ∧ Keeps dfa dfa' ∧
      ∃ last, walk dfa' s (word.drop (idx + 1)) = some last ∧
        deref dfa' last = ⟨true, none⟩) := by
  intro fuel
  induction fuel with
  | zero =>
    constructor
    · intro dfa s idx b dfa' _ _ _ h
      simp [addWord] at h
    · intro dfa s idx b dfa' _ _ _ h
      simp [setState] at h
  | succ fuel ih =>
    obtain ⟨ihA, ihS⟩ := ih
    constructor
    · intro dfa s idx b dfa' hwf hs habs h
      rw [addWord] at h
      cases hc : word[idx]? with
      | none => simp [hc] at h
      | some c =>
        have hnone := habs c hc
        simp only [hc, hnone] at h
        cases hl : (deref dfa s).transitions with
        | none =>
          simp [deref_alloc_old dfa s hs, hl, mapSet] at h
        | some l =>
          have hlk : l.lookup c = none := by
            have := hnone
            rw [hl] at this
            exact this
          simp only [deref_alloc_old dfa s hs, hl, mapSet, hlk, alloc_fst] at h
          obtain ⟨hwf₂, hk₂, hlen₂, hnew₂, hget₂⟩ :=
            addWord_link_step dfa s c l hs hwf hl hlk _ rfl
          rw [deref_alloc_old dfa s hs] at hwf₂ hk₂ hlen₂ hnew₂ hget₂
          obtain ⟨hb, hwf', hk', last, hwalk, hlast⟩ :=
            ihS _ (dfa.heap.length + 1) idx b dfa' hwf₂ (by omega) hnew₂ h
          refine ⟨hb, hwf', Keeps_trans hk₂ hk', last, ?_, hlast⟩
          rw [drop_of_getElem? hc]
          simp only [walk]
          rw [hk'.2 s (by omega) c _ hget₂]
          exact hwalk
    · intro dfa s idx b dfa' hwf hs hnew h
      rw [setState] at h
      by_cases hlen : word.length > idx + 1
      · simp only [hlen, if_true, hnew] at h
        have hz : len newState.transitions = 0 := rfl
        simp only [hz, if_true] at h
        obtain ⟨hwf₁, hk₁⟩ := setState_make_step dfa s hs hwf hnew
        rw [hnew] at hwf₁ hk₁
        have hs₁ : s ≤ (store dfa s { newState with transitions := some [] }).heap.length := by
          rw [store_heap_length]; exact hs
        obtain ⟨hb, hwf', hk', last, hwalk, hlast⟩ :=
          ihA _ s (idx + 1) b dfa' hwf₁ hs₁
            (by intro c _; rw [deref_store_same _ _ _ hs]; rfl) h
        exact ⟨hb, hwf', Keeps_trans hk₁ hk', last, hwalk, hlast⟩
      · simp only [hlen, if_false, hnew, Result.ret.injEq, Prod.mk.injEq] at h
        obtain ⟨hb, hd⟩ := h
        obtain ⟨hwf₁, hk₁⟩ := setState_final_step dfa s hs hwf hnew
        rw [hnew] at hwf₁ hk₁
        subst hd
        refine ⟨by rw [← hb]; rfl, hwf₁, hk₁, s, ?_, ?_⟩
        · rw [List.drop_of_length_le (by omega)]
          rfl
        · rw [deref_store_same _ _ _ hs]
          rfl

/-! ## The common-prefix walk -/

/-- When the whole rest of the word is a path, the loop consumes all of it. -/
theorem commonPrefixLoop_of_walk (dfa : graph) (word : List rune) :
    ∀ (n s idx s' : Nat), idx ≤ word.length → n = word.length - idx →
      walk dfa s (word.drop idx) = some s' →
      commonPrefixLoop dfa word n s idx = (s', word.length) := by
  intro n
  induction n with
  | zero =>
    intro s idx s' hle hn hw
    have hidx : idx = word.length := by omega
    subst hidx
    simp only [List.drop_length, walk, Option.some.injEq] at hw
    subst hw
    rfl
  | succ n ih =>
    intro s idx s' hle hn hw
    have hlt : idx < word.length := by omega
    have hc : word[idx]? = some word[idx] := List.getElem?_eq_getElem hlt
    rw [drop_of_getElem? hc] at hw
    simp only [walk] at hw
    cases hg : mapGet (deref dfa s).transitions word[idx] with
    | none => simp [hg] at hw
    | some q =>
      simp only [hg] at hw
      have hpos := mapGet_len_pos hg
      rw [commonPrefixLoop]
      simp only [gt_iff_lt, hpos, hlt, and_self, if_true, hc, hg]
      exact ih q (idx + 1) s' (by omega) (by omega) hw

/-- The loop stops on a path of the graph, at a state without the next symbol. -/
theorem commonPrefixLoop_spec (dfa : graph) (word : List rune) (s₀ : Nat) :
    ∀ (n s idx : Nat), idx ≤ word.length → n = word.length - idx →
      walk dfa s₀ (word.take idx) = some s →
      idx ≤ (commonPrefixLoop dfa word n s idx).2 ∧
      (commonPrefixLoop dfa word n s idx).2 ≤ word.length ∧
      walk dfa s₀ (word.take (commonPrefixLoop dfa word n s idx).2) =
        some (commonPrefixLoop dfa word n s idx).1 ∧
      (∀ c, word[(commonPrefixLoop dfa word n s idx).2]? = some c →
        mapGet (deref dfa (commonPrefixLoop dfa word n s idx).1).transitions c = none) := by
  intro n
  induction n with
  | zero =>
    intro s idx hle hn hw
    have hidx : idx = word.length := by omega
    subst hidx
    simp only [commonPrefixLoop]
    refine ⟨le_refl _, le_refl _, hw, ?_⟩
    intro c hc
    simp at hc
  | succ n ih =>
    intro s idx hle hn hw
    have hlt : idx < word.length := by omega
    have hc : word[idx]? = some word[idx] := List.getElem?_eq_getElem hlt
    rw [commonPrefixLoop]
    by_cases hpos : len (deref dfa s).transitions > 0
    · simp only [hpos, hlt, gt_iff_lt, and_self, if_true, hc]
      cases hg : mapGet (deref dfa s).transitions word[idx] with
      | none =>
        simp only
        refine ⟨le_refl _, hle, hw, ?_⟩
        intro c hc'
        rw [hc] at hc'
        cases hc'
        exact hg
      | some q =>
        simp only
        have hw' : walk dfa s₀ (word.take (idx + 1)) = some q := by
          rw [List.take_succ, walk_append, hw, hc]
          simp [walk, hg]
        obtain ⟨h1, h2, h3, h4⟩ := ih q (idx + 1) (by omega) (by omega) hw'
        exact ⟨by omega, h2, h3, h4⟩
    · simp only [hpos, false_and, if_false]
      refine ⟨le_refl _, hle, hw, ?_⟩
      intro c _
      cases hm : (deref dfa s).transitions with
      | none => rfl
      | some l =>
        rw [hm] at hpos
        cases l with
        | nil => rfl
        | cons e l => simp [len] at hpos

/-! ## Insert -/

/-- A completed `Insert` keeps the graph well formed and leaves the whole word as a path:
either nothing changed and `false` is returned, or the path ends in a fresh final leaf. -/
theorem Insert_path (dfa : graph) (word : String) (b : Bool) (dfa' : graph)
    (hwf : WF dfa) (h : Insert dfa word = .ret (b, dfa')) :
    WF dfa' ∧ ∃ last, walk dfa' 0 (runes word) = some last ∧
      ((b = false ∧ dfa' = dfa) ∨ (b = true ∧ deref dfa' last = ⟨true, none⟩)) := by
  unfold Insert at h
  dsimp only at h
  obtain ⟨h1, h2, h3, h4⟩ := commonPrefixLoop_spec dfa (runes word) 0 ((runes word).length - 0)
    0 0 (Nat.zero_le _) rfl rfl
  change _ ≤ (commonPrefix dfa (runes word) 0).2 at h1
  change (commonPrefix dfa (runes word) 0).2 ≤ _ at h2
  change walk dfa 0 (List.take (commonPrefix dfa (runes word) 0).2 _) =
    some (commonPrefix dfa (runes word) 0).1 at h3
  change ∀ c, (runes word)[(commonPrefix dfa (runes word) 0).2]? = some c →
    mapGet (deref dfa (commonPrefix dfa (runes word) 0).1).transitions c = none at h4
  generalize commonPrefix dfa (runes word) 0 = si at h h1 h2 h3 h4
  generalize runes word = symbols at h h1 h2 h3 h4
  obtain ⟨s, i⟩ := si
  simp only at h h1 h2 h3 h4
  have hs : s ≤ dfa.heap.length := walk_valid hwf _ 0 s (Nat.zero_le _) h3
  generalize (if len (deref dfa s).transitions > 0 then
    replaceOrRegister (dfa.heap.length + 1) dfa s else Result.ret ()) = r at h
  cases r with
  | panic => simp at h
  | diverge => simp at h
  | ret u =>
    simp only at h
    by_cases hlt : symbols.length > i
    · simp only [hlt, if_true] at h
      obtain ⟨hb, hwf', hk, last, hwalk, hlast⟩ :=
        (addWord_setState_fresh symbols (2 * symbols.length)).1 dfa s i b dfa' hwf hs h4 h
      refine ⟨hwf', last, ?_, Or.inr ⟨hb, hlast⟩⟩
      have h3' := walk_mono hwf hk.2 _ 0 s (Nat.zero_le _) h3
      have : symbols = symbols.take i ++ symbols.drop i := (List.take_append_drop i symbols).symm
      rw [this, walk_append, h3']
      exact hwalk
    · simp only [hlt, if_false, Result.ret.injEq, Prod.mk.injEq] at h
      obtain ⟨hb, hd⟩ := h
      subst hd
      have hi : i = symbols.length := by omega
      subst hi
      rw [List.take_length] at h3
      exact ⟨hwf, s, h3, Or.inl ⟨hb.symm, rfl⟩⟩

theorem WF_NewGraph : WF NewGraph := by
  intro p hp
  have hp0 : p = 0 := by simpa [NewGraph] using hp
  subst hp0
  simp [NewGraph, deref, entries]

theorem Reachable_wf {dfa : graph} (h : Reachable dfa) : WF dfa := by
  induction h with
  | new => exact WF_NewGraph
  | insert dfa word b dfa' _ hins ih => exact (Insert_path dfa word b dfa' ih hins).1
  | delete dfa word _ ih => exact ih

/-! ## Fuel is enough -/

theorem len_eq_length_entries (m : transMap) : len m = (entries m).length := by
  cases m <;> rfl

/-- On a well-formed graph `replaceOrRegister` returns: it descends to ever later states. -/
theorem replaceOrRegister_ret {dfa : graph} (hwf : WF dfa) :
    ∀ (fuel s : Nat), s ≤ dfa.heap.length → dfa.heap.length + 1 - s ≤ fuel →
      0 < len (deref dfa s).transitions → replaceOrRegister fuel dfa s = .ret () := by
  intro fuel
  induction fuel with
  | zero => intro s hs hf _; omega
  | succ fuel ih =>
    intro s hs hf hpos
    rw [replaceOrRegister]
    have ht : ¬ len (deref dfa s).transitions = 0 := by omega
    simp only [ht, if_false]
    have hlen : (((entries (deref dfa s).transitions).map (fun kv => kv.1)).insertionSort
        (· ≤ ·)).length = len (deref dfa s).transitions := by
      rw [List.length_insertionSort, List.length_map, len_eq_length_entries]
    have hlt : len (deref dfa s).transitions - 1 <
        (((entries (deref dfa s).transitions).map (fun kv => kv.1)).insertionSort
          (· ≤ ·)).length := by omega
    obtain ⟨k, hk, hmem⟩ : ∃ k,
        (((entries (deref dfa s).transitions).map (fun kv => kv.1)).insertionSort
          (· ≤ ·))[len (deref dfa s).transitions - 1]? = some k ∧
        k ∈ (entries (deref dfa s).transitions).map (fun kv => kv.1) := by
      refine ⟨_, List.getElem?_eq_getElem hlt, ?_⟩
      have hmem := List.getElem_mem hlt
      rwa [(List.perm_insertionSort _ _).mem_iff] at hmem
    rw [hk]
    simp only
    have hget : ∃ q, mapGet (deref dfa s).transitions k = some q := by
      cases hm : (deref dfa s).transitions with
      | none => rw [hm] at hpos; simp [len] at hpos
      | some l =>
        simp only [hm, entries] at hmem
        exact lookup_of_mem_keys hmem
    obtain ⟨q, hq⟩ := hget
    rw [hq]
    simp only
    have hq' := (hwf s hs).1 _ (mapGet_mem hq)
    by_cases hp : len (deref dfa q).transitions > 0
    · simp only [hp, if_true]
      exact ih q hq'.2 (by simp only at hq'; omega) hp
    · simp only [hp, if_false]

/-- The fuel `Insert` hands to `addWord` covers the symbols that are left. -/
theorem addWord_setState_fuel (word : List rune) : ∀ fuel : Nat,
    (∀ (dfa : graph) (s idx : Nat), idx < word.length → 2 * (word.length - idx) ≤ fuel →
      addWord fuel dfa s word idx ≠ .diverge) ∧
    (∀ (dfa : graph) (s idx : Nat), idx < word.length → 2 * (word.length - idx) ≤ fuel + 1 →
      setState fuel dfa s word idx ≠ .diverge) := by
  intro fuel
  induction fuel with
  | zero =>
    constructor
    · intro dfa s idx h1 h2; omega
    · intro dfa s idx h1 h2; omega
  | succ fuel ih =>
    obtain ⟨ihA, ihS⟩ := ih
    constructor
    · intro dfa s idx h1 h2
      rw [addWord]
      rw [List.getElem?_eq_getElem h1]
      simp only
      cases mapGet (deref dfa s).transitions word[idx] with
      | some succ => exact ihS _ _ _ h1 h2
      | none =>
        simp only
        cases mapSet (deref (alloc dfa).2 s).transitions word[idx] (alloc dfa).1 with
        | none => simp
        | some m => exact ihS _ _ _ h1 h2
    · intro dfa s idx h1 h2
      rw [setState]
      by_cases hlen : word.length > idx + 1
      · simp only [hlen, if_true]
        exact ihA _ _ _ hlen (by omega)
      · simp only [hlen, if_false]
        simp

/-- On a well-formed graph the model of `Insert` never runs out of fuel. -/
theorem Insert_ne_diverge (dfa : graph) (word : String) (hwf : WF dfa) :
    Insert dfa word ≠ .diverge := by
  unfold Insert
  dsimp only
  obtain ⟨h1, h2, h3, h4⟩ := commonPrefixLoop_spec dfa (runes word) 0 ((runes word).length - 0)
    0 0 (Nat.zero_le _) rfl rfl
  change (commonPrefix dfa (runes word) 0).2 ≤ _ at h2
  change walk dfa 0 (List.take (commonPrefix dfa (runes word) 0).2 _) =
    some (commonPrefix dfa (runes word) 0).1 at h3
  clear h1 h4
  generalize commonPrefix dfa (runes word) 0 = si at h2 h3 ⊢
  generalize runes word = symbols at h2 h3 ⊢
  obtain ⟨s, i⟩ := si
  simp only at h2 h3 ⊢
  have hs : s ≤ dfa.heap.length := walk_valid hwf _ 0 s (Nat.zero_le _) h3
  have hr : (if len (deref dfa s).transitions > 0 then
      replaceOrRegister (dfa.heap.length + 1) dfa s else Result.ret ()) = .ret () := by
    by_cases hp : len (deref dfa s).transitions > 0
    · simp only [hp, if_true]
      exact replaceOrRegister_ret hwf _ s hs (by omega) hp
    · simp only [hp, if_false]
  rw [hr]
  simp only
  by_cases hlt : symbols.length > i
  · simp only [hlt, if_true]
    exact (addWord_setState_fuel symbols (2 * symbols.length)).1 dfa s i hlt (by omega)
  · simp only [hlt, if_false]
    simp

/-! ## Rendering -/

/-- The run of `String()` in insertion order is `StringBy` at the order that leaves the
entries of every map as they are. -/
theorem String_eq_StringBy : ∀ (fuel : Nat) (dfa : graph) (v : Nat),
    state.String fuel dfa v = state.StringBy (fun _ l => l) fuel dfa v := by
  intro fuel
  induction fuel with
  | zero => intro dfa v; rfl
  | succ fuel ih =>
    intro dfa v
    rw [state.String, state.StringBy]
    have hpiece : (fun kv : rune × Nat =>
        match state.String fuel dfa kv.2 with
        | .ret sub =>
          if (deref dfa kv.2).final then
            Result.ret (String.singleton (runeChar kv.1) ++ "$" ++ sub)
          else
            Result.ret (String.singleton (runeChar kv.1) ++ sub)
        | .panic => .panic
        | .diverge => .diverge) =
        (fun kv : rune × Nat =>
        match state.StringBy (fun _ l => l) fuel dfa kv.2 with
        | .ret sub =>
          if (deref dfa kv.2).final then
            Result.ret (String.singleton (runeChar kv.1) ++ "$" ++ sub)
          else
            Result.ret (String.singleton (runeChar kv.1) ++ sub)
        | .panic => .panic
        | .diverge => .diverge) := by
      funext kv
      rw [ih dfa kv.2]
    simp only [hpiece]

theorem collect_map_ret {α : Type} (f : α → Result String) :
    ∀ l : List α, (∀ x ∈ l, ∃ a, f x = .ret a) →
      ∃ strs, collect (l.map f) = .ret strs ∧ strs.length = l.length := by
  intro l
  induction l with
  | nil => intro _; exact ⟨[], rfl, rfl⟩
  | cons x l ih =>
    intro h
    obtain ⟨a, ha⟩ := h x (List.mem_cons_self _ _)
    obtain ⟨strs, hs, hl⟩ := ih (fun y hy => h y (List.mem_cons_of_mem _ hy))
    refine ⟨a :: strs, ?_, by simp [hl]⟩
    simp only [List.map_cons, collect, ha, hs]

/-- On a well-formed graph `String` returns a text: the fuel covers every descent. -/
theorem String_returns {dfa : graph} (hwf : WF dfa) :
    ∀ (fuel v : Nat), v ≤ dfa.heap.length → dfa.heap.length + 1 - v ≤ fuel →
      ∃ str, state.String fuel dfa v = .ret str := by
  intro fuel
  induction fuel with
  | zero => intro v hv hf; omega
  | succ fuel ih =>
    intro v hv hf
    rw [state.String]
    by_cases h0 : len (deref dfa v).transitions = 0
    · simp only [h0, if_true]
      exact ⟨_, rfl⟩
    · simp only [h0, if_false]
      obtain ⟨strs, hs, hl⟩ := collect_map_ret (fun kv : rune × Nat =>
          match state.String fuel dfa kv.2 with
          | .ret sub =>
            if (deref dfa kv.2).final then
              Result.ret (String.singleton (runeChar kv.1) ++ "$" ++ sub)
            else
              Result.ret (String.singleton (runeChar kv.1) ++ sub)
          | .panic => .panic
          | .diverge => .diverge) (entries (deref dfa v).transitions) (by
        intro kv hkv
        have hq := (hwf v hv).1 kv hkv
        obtain ⟨sub, hsub⟩ := ih kv.2 hq.2 (by omega)
        simp only [hsub]
        cases (deref dfa kv.2).final
        · exact ⟨_, rfl⟩
        · exact ⟨_, rfl⟩)
      rw [hs]
      simp only
      by_cases h1 : len (deref dfa v).transitions = 1
      · simp only [h1, if_true]
        have hlt : 0 < strs.length := by
          rw [hl, ← len_eq_length_entries, h1]; exact Nat.one_pos
        rw [List.getElem?_eq_getElem hlt]
        exact ⟨_, rfl⟩
      · simp only [h1, if_false]
        exact ⟨_, rfl⟩

/-! ## The claims -/

/-- C1 (code bug): of the eight inserts of `TestInsert` into a fresh graph, the sixth,
`Insert("her")`, and the eighth, `Insert("he")`, return false although neither word was
inserted before: the path of the word exists already, as a prefix of earlier words, and
`Insert` returns false without looking at the final flag.  The nine inserts of
`TestUnicode` all return true. -/
theorem TestInsert_prefix_words_return_false :
    Prod.fst <$> insertAll NewGraph
        ["heard", "here", "herd", "head", "hard", "her", "had", "he"] =
      .ret [true, true, true, true, true, false, true, false] ∧
    Prod.fst <$> insertAll NewGraph
        ["The", "quick", "brown", "狐", "jumped", "over", "the", "lazy", "犬"] =
      .ret [true, true, true, true, true, true, true, true, true] := by
  constructor <;> decide!

/-- C2 (code bug): after the eight inserts of `TestInsert` the words "her" and "he", both
inserted, are not accepted (the states their paths reach are not final), while "heard" is;
`String()` is `h(e(a(rd$|d$)|r(e$|d$))|a(rd$|d$))`, without the `$` after `e` and `r` that
the test expects. -/
theorem TestInsert_string_lacks_final_marks :
    (do let r ← insertAll NewGraph
              ["heard", "here", "herd", "head", "hard", "her", "had", "he"]
        let str ← r.2.String
        pure (accepts r.2 "heard", accepts r.2 "her", accepts r.2 "he", str)) =
      .ret (true, false, false, "h(e(a(rd$|d$)|r(e$|d$))|a(rd$|d$))") ∧
    "h(e(a(rd$|d$)|r(e$|d$))|a(rd$|d$))" ≠ "h(e$(a(rd$|d$)|r$(e$|d$))|a(rd$|d$))" := by
  constructor <;> decide!

/-- C3: on a graph obtained from `NewGraph()` by `Insert` (and `Delete`) calls, a call
`Insert(w)` ends (it returns or panics), and when it returns, a second `Insert(w)` right
after it returns false and leaves the graph as the first call left it. -/
theorem Insert_idempotent (dfa : graph) (word : String) (hr : Reachable dfa) :
    Insert dfa word ≠ .diverge ∧
    ∀ b dfa', Insert dfa word = .ret (b, dfa') → Insert dfa' word = .ret (false, dfa') := by
  refine ⟨Insert_ne_diverge dfa word (Reachable_wf hr), ?_⟩
  intro b dfa' h
  obtain ⟨_, last, hwalk, hcase⟩ := Insert_path dfa word b dfa' (Reachable_wf hr) h
  rcases hcase with ⟨hb, hd⟩ | ⟨_, hlast⟩
  · subst hd
    rw [h, hb]
  · have hcp : commonPrefix dfa' (runes word) 0 = (last, (runes word).length) :=
      commonPrefixLoop_of_walk dfa' (runes word) _ 0 0 last (Nat.zero_le _) rfl hwalk
    unfold Insert
    dsimp only
    simp only [hcp, hlast, len, gt_iff_lt, lt_irrefl, if_false]

/-- The witness of C3: "hi" inserted twice into the graph that holds "he". -/
theorem Insert_idempotent_witness :
    Reachable ⟨⟨false, some [(104, 1)]⟩, [⟨false, some [(101, 2)]⟩, ⟨true, none⟩]⟩ ∧
    Insert ⟨⟨false, some [(104, 1)]⟩, [⟨false, some [(101, 2)]⟩, ⟨true, none⟩]⟩ "hi" =
      .ret (true, ⟨⟨false, some [(104, 1)]⟩,
        [⟨false, some [(101, 2), (105, 3)]⟩, ⟨true, none⟩, ⟨true, none⟩]⟩) ∧
    Insert ⟨⟨false, some [(104, 1)]⟩,
        [⟨false, some [(101, 2), (105, 3)]⟩, ⟨true, none⟩, ⟨true, none⟩]⟩ "hi" =
      .ret (false, ⟨⟨false, some [(104, 1)]⟩,
        [⟨false, some [(101, 2), (105, 3)]⟩, ⟨true, none⟩, ⟨true, none⟩]⟩) :=
  have hr : Reachable ⟨⟨false, some [(104, 1)]⟩, [⟨false, some [(101, 2)]⟩, ⟨true, none⟩]⟩ :=
    Reachable.insert NewGraph "he" true _ Reachable.new (by decide!)
  ⟨hr, by decide!, (Insert_idempotent _ "hi" hr).2 true _ (by decide!)⟩

/-- C4 (code bug): after `Insert("狐")` into a fresh graph the word is accepted by the
graph (its path ends in a final state), and `Contains("狐")` returns false. -/
theorem Contains_false_after_Insert :
    (do let r ← Insert NewGraph "狐"
        pure (r.1, accepts r.2 "狐", Contains r.2 "狐")) = .ret (true, true, false) := by
  decide!

/-- C5 (code bug): after `Insert("x")` into a fresh graph, `Delete("x")` returns false
and the word is still accepted. -/
theorem Delete_returns_false_on_member :
    (do let r ← Insert NewGraph "x"
        pure (r.1, accepts r.2 "x", (Delete r.2 "x").1, accepts (Delete r.2 "x").2 "x")) =
      .ret (true, true, false, true) := by
  decide!

/-- C6 (code bug): `Insert("x")` then `Delete("x")` on a fresh graph return true and
false, and `String()` is `x$` afterwards, not the empty text it was before. -/
theorem Insert_Delete_not_inverse :
    NewGraph.String = .ret "" ∧
    (do let r ← Insert NewGraph "x"
        let str ← (Delete r.2 "x").2.String
        pure (r.1, (Delete r.2 "x").1, str)) = .ret (true, false, "x$") := by
  constructor <;> decide!

/-- C7 (code bug): after `Insert("x")` into a fresh graph the word is accepted, and both
`Lookup("")` and `Lookup("x")` return the empty (nil) slice. -/
theorem Lookup_empty_after_Insert :
    (do let r ← Insert NewGraph "x"
        pure (r.1, accepts r.2 "x", Lookup r.2 "", Lookup r.2 "x")) =
      .ret (true, true, [], []) := by
  decide!

/-- C8 (code bug): after inserting "head", "he" and "ad" into a fresh graph, "head" is
accepted, and `Words("head", 0)` returns the empty (nil) slice. -/
theorem Words_empty_after_Insert :
    (do let r ← insertAll NewGraph ["head", "he", "ad"]
        pure (r.1, accepts r.2 "head", Words r.2 "head" 0)) =
      .ret ([true, false, true], true, []) := by
  decide!

/-- C9 (code bug): `String()` ranges over the map of a state in an order that Go leaves
open, and it does not sort.  After `Insert("x")` and `Insert("yz")` into a fresh graph it
returns `(x$|yz$)` when the map of the root is visited in insertion order, and `(yz$|x$)`
when it is visited in the opposite order; both orders are permitted.  The rendering is
thus not fixed by the automaton, and the text that `TestString` expects is only one of the
texts the call can return. -/
theorem String_depends_on_range_order :
    permitted (fun _ l => l) ∧ permitted (fun _ l => l.reverse) ∧
    (do let r ← insertAll NewGraph ["x", "yz"]
        r.2.StringBy (fun _ l => l)) = .ret "(x$|yz$)" ∧
    (do let r ← insertAll NewGraph ["x", "yz"]
        r.2.StringBy (fun _ l => l.reverse)) = .ret "(yz$|x$)" ∧
    (do let r ← insertAll NewGraph ["x", "yz"]
        r.2.String) = .ret "(x$|yz$)" ∧
    "(yz$|x$)" ≠ "(x$|yz$)" := by
  refine ⟨fun _ l => List.Perm.refl l, fun _ l => List.reverse_perm l,
    by decide!, by decide!, by decide!, by decide!⟩

/-- C10: the graph of `NewGraph()` has a root that is not final and has no transition, its
`String()` is the empty text, and for every word `Contains` is false and `Lookup` empty. -/
theorem NewGraph_empty :
    NewGraph.root.final = false ∧ len NewGraph.root.transitions = 0 ∧
    deref NewGraph 0 = NewGraph.root ∧
    NewGraph.String = .ret "" ∧
    ∀ w : String, Contains NewGraph w = false ∧ Lookup NewGraph w = [] := by
  refine ⟨rfl, rfl, rfl, by decide!, fun w => ⟨rfl, rfl⟩⟩

/-! ## The hash-map trie -/

theorem lookup_putEntry_same (k v : Nat) :
    ∀ l : List (Nat × Nat), (putEntry k v l).lookup k = some v := by
  intro l
  induction l with
  | nil => simp [putEntry, List.lookup]
  | cons e l ih =>
    obtain ⟨k', v'⟩ := e
    by_cases hk : k' = k
    · simp [putEntry, hk, List.lookup]
    · have hb : (k == k') = false := by simpa using fun h => hk h.symm
      simp only [putEntry, hk, if_false, List.lookup, hb]
      exact ih

theorem lookup_putEntry_other (k v k₀ : Nat) (h : k₀ ≠ k) :
    ∀ l : List (Nat × Nat), (putEntry k v l).lookup k₀ = l.lookup k₀ := by
  intro l
  induction l with
  | nil =>
    have hb : (k₀ == k) = false := by simpa using h
    simp [putEntry, List.lookup, hb]
  | cons e l ih =>
    obtain ⟨k', v'⟩ := e
    by_cases hk : k' = k
    · subst hk
      have hb : (k₀ == k') = false := by simpa using h
      simp [putEntry, List.lookup, hb]
    · simp only [putEntry, hk, if_false, List.lookup]
      cases (k₀ == k') <;> simp [ih]

theorem TrieReachable_made {t : Trie} (h : TrieReachable t) : ∃ l, t.transitions = some l := by
  induction h with
  | new => exact ⟨[], rfl⟩
  | create t state t' _ hc ih =>
    obtain ⟨l, hl⟩ := ih
    unfold Create at hc
    dsimp only at hc
    split at hc
    · cases hc
    · cases hc
      exact ⟨l, hl⟩
  | add t src label dst t' _ ha ih =>
    obtain ⟨l, hl⟩ := ih
    unfold Add at ha
    rw [hl] at ha
    cases ha
    exact ⟨_, rfl⟩

/-- The key in closed form: for a label that is not negative, state and label side by
side; for a negative label the sign extension borrows from the state. -/
theorem makeKey_eq (state : Nat) (label : Int) (hs : state < 4294967296)
    (h0 : -2147483648 ≤ label) (h1 : label < 2147483648) :
    (makeKey state label : Int) =
      if 0 ≤ label then (state : Int) * 4294967296 + label
      else if state = 0 then 18446744073709551616 + label
      else (state : Int) * 4294967296 + label := by
  unfold makeKey
  dsimp only
  have e2 : state * 4294967296 % 18446744073709551616 = state * 4294967296 := by omega
  rw [e2]
  by_cases hl : 0 ≤ label
  · have e1 : label % 18446744073709551616 = label := by omega
    rw [e1]
    simp only [hl, if_true]
    omega
  · have e1 : label % 18446744073709551616 = label + 18446744073709551616 := by omega
    rw [e1]
    simp only [hl, if_false]
    by_cases hz : state = 0
    · simp only [hz, if_true]
      omega
    · simp only [hz, if_false]
      omega

/-- The key splits into the state and the label when the label is not negative. -/
theorem makeKey_split (state : Nat) (label : Int) (hs : state < 4294967296)
    (h0 : 0 ≤ label) (h1 : label < 2147483648) :
    makeKey state label / 4294967296 = state ∧
    makeKey state label % 4294967296 = label.toNat := by
  have h := makeKey_eq state label hs (by omega) h1
  simp only [h0, if_true] at h
  omega

theorem makeKey_injective (s₁ s₂ : Nat) (l₁ l₂ : Int)
    (hs₁ : s₁ < 4294967296) (hs₂ : s₂ < 4294967296)
    (h₁ : -2147483648 ≤ l₁ ∧ l₁ < 2147483648) (h₂ : -2147483648 ≤ l₂ ∧ l₂ < 2147483648)
    (h : makeKey s₁ l₁ = makeKey s₂ l₂) : s₁ = s₂ ∧ l₁ = l₂ := by
  have e₁ := makeKey_eq s₁ l₁ hs₁ h₁.1 h₁.2
  have e₂ := makeKey_eq s₂ l₂ hs₂ h₂.1 h₂.2
  rw [h] at e₁
  rw [e₁] at e₂
  clear e₁ h
  split at e₂ <;> split at e₂ <;> (try split at e₂) <;> (try split at e₂) <;> omega



/-! ## The exact effect of `addWord` -/

/-- Allocate a state and link it below `s`: what the memory holds afterwards. -/
theorem link_frame (dfa : graph) (s : Nat) (c : rune) (l : List (rune × Nat))
    (hs : s ≤ dfa.heap.length) (hl : (deref dfa s).transitions = some l) :
    ∀ dfa₂, dfa₂ = store (alloc dfa).2 s
      { deref (alloc dfa).2 s with transitions := some (l ++ [(c, dfa.heap.length + 1)]) } →
    dfa₂.heap.length = dfa.heap.length + 1 ∧
    deref dfa₂ (dfa.heap.length + 1) = newState ∧
    deref dfa₂ s = ⟨(deref dfa s).final, some (l ++ [(c, dfa.heap.length + 1)])⟩ ∧
    ∀ p, p ≤ dfa.heap.length → p ≠ s → deref dfa₂ p = deref dfa p := by
  intro dfa₂ hdef
  have hs' : s ≤ (alloc dfa).2.heap.length := by rw [alloc_heap_length]; omega
  refine ⟨?_, ?_, ?_, ?_⟩
  · rw [hdef, store_heap_length, alloc_heap_length]
  · rw [hdef, deref_store_other _ _ _ _ hs' (by omega), deref_alloc_new]
  · rw [hdef, deref_store_same _ _ _ hs', deref_alloc_old _ _ hs]
  · intro p hp hps
    rw [hdef, deref_store_other _ _ _ _ hs' hps, deref_alloc_old _ _ hp]

/-- The exact effect of `addWord` below a state that lacks the next symbol, and of
`setState` on the state just allocated. -/
theorem addWord_setState_frame (word : List rune) : ∀ fuel : Nat,
    (∀ (dfa : graph) (s idx : Nat) (b : Bool) (dfa' : graph) (l : List (rune × Nat)),
      s ≤ dfa.heap.length → (deref dfa s).transitions = some l →
      (∀ c, word[idx]? = some c → l.lookup c = none) →
      addWord fuel dfa s word idx = .ret (b, dfa') →
      b = true ∧ Extended dfa dfa' s (word.drop idx)) ∧
    (∀ (dfa : graph) (s idx : Nat) (b : Bool) (dfa' : graph),
      s = dfa.heap.length → deref dfa s = newState →
      setState fuel dfa s word idx = .ret (b, dfa') →
      b = true ∧ dfa'.heap.length = s + (word.drop (idx + 1)).length ∧
      (∀ p, p < s → deref dfa' p = deref dfa p) ∧
      (∀ j, j < (word.drop (idx + 1)).length → ∃ c', (word.drop (idx + 1))[j]? = some c' ∧
        deref dfa' (s + j) = ⟨false, some [(c', s + j + 1)]⟩) ∧
      deref dfa' (s + (word.drop (idx + 1)).length) = ⟨true, none⟩) := by
  intro fuel
  induction fuel with
  | zero =>
    constructor
    · intro dfa s idx b dfa' l _ _ _ h
      simp [addWord] at h
    · intro dfa s idx b dfa' _ _ h
      simp [setState] at h
  | succ fuel ih =>
    obtain ⟨ihA, ihS⟩ := ih
    constructor
    · intro dfa s idx b dfa' l hs hl habs h
      rw [addWord] at h
      cases hc : word[idx]? with
      | none => simp [hc] at h
      | some c =>
        have hlk := habs c hc
        have hnone : mapGet (deref dfa s).transitions c = none := by rw [hl]; exact hlk
        simp only [hc, hnone] at h
        simp only [deref_alloc_old dfa s hs, hl, mapSet, hlk, alloc_fst] at h
        obtain ⟨hlen₂, hnew₂, hs₂, hoth₂⟩ := link_frame dfa s c l hs hl _ rfl
        rw [deref_alloc_old dfa s hs] at hlen₂ hnew₂ hs₂ hoth₂
        obtain ⟨hb, hlen', hold', hchain', hlast'⟩ :=
          ihS _ (dfa.heap.length + 1) idx b dfa' hlen₂.symm hnew₂ h
        have hdrop := drop_of_getElem? hc
        refine ⟨hb, l, c, hl, ?_, hlk, ?_, ?_, ?_, ?_, ?_⟩
        · rw [hdrop]; simp
        · rw [hlen', hdrop, List.length_cons]; omega
        · intro p hp hps
          rw [hold' p (by omega), hoth₂ p hp hps]
        · rw [hold' s (by omega), hs₂]
        · intro j hj1 hjlt
          rw [hdrop, List.length_cons] at hjlt
          obtain ⟨c', hc', hd⟩ := hchain' (j - 1) (by omega)
          refine ⟨c', ?_, ?_⟩
          · rw [hdrop]
            have : j = (j - 1) + 1 := by omega
            rw [this, List.getElem?_cons_succ]
            exact hc'
          · have e1 : dfa.heap.length + 1 + (j - 1) = dfa.heap.length + j := by omega
            rw [e1] at hd
            exact hd
        · rw [hdrop, List.length_cons]
          have e1 : dfa.heap.length + 1 + (word.drop (idx + 1)).length =
              dfa.heap.length + ((word.drop (idx + 1)).length + 1) := by omega
          rw [e1] at hlast'
          exact hlast'
    · intro dfa s idx b dfa' hsH hnew h
      have hsle : s ≤ dfa.heap.length := by omega
      rw [setState] at h
      by_cases hlen : word.length > idx + 1
      · simp only [hlen, if_true, hnew] at h
        have hz : len newState.transitions = 0 := rfl
        simp only [hz, if_true] at h
        have hs₁ : s ≤ (store dfa s { newState with transitions := some [] }).heap.length := by
          rw [store_heap_length]; exact hsle
        have hd₁ : (deref (store dfa s { newState with transitions := some [] })
            s).transitions = some [] := by
          rw [deref_store_same _ _ _ hsle]
        obtain ⟨hb, l, c, hl, hc0, _, hlen', hold', hs', hchain', hlast'⟩ :=
          ihA _ s (idx + 1) b dfa' [] hs₁ hd₁ (fun _ _ => rfl) h
        rw [store_heap_length] at hlen' hold' hs' hchain' hlast'
        rw [deref_store_same _ _ _ hsle] at hl hs'
        have hl0 : l = [] := by
          simp only [Option.some.injEq] at hl
          exact hl.symm
        subst hl0
        rw [← hsH] at hlen' hold' hs' hchain' hlast'
        refine ⟨hb, hlen', ?_, ?_, hlast'⟩
        · intro p hp
          rw [hold' p (by omega) (by omega), deref_store_other _ _ _ _ hsle (by omega)]
        · intro j hj
          by_cases hj0 : j = 0
          · subst hj0
            exact ⟨c, hc0, by rw [Nat.add_zero, hs']; rfl⟩
          · exact hchain' j (by omega) hj
      · simp only [hlen, if_false, hnew, Result.ret.injEq, Prod.mk.injEq] at h
        obtain ⟨hb, hd⟩ := h
        subst hd
        have hdl : (word.drop (idx + 1)).length = 0 := by
          rw [List.length_drop]; omega
        refine ⟨by rw [← hb]; rfl, ?_, ?_, ?_, ?_⟩
        · rw [store_heap_length, hdl]; omega
        · intro p hp
          rw [deref_store_other _ _ _ _ hsle (by omega)]
        · intro j hj
          omega
        · rw [hdl, Nat.add_zero, deref_store_same _ _ _ hsle]
          rfl

/-! ## What a completed `Insert` did -/

/-- Below a state with a nil map `addWord` does not return. -/
theorem addWord_nil_map (word : List rune) (fuel : Nat) (dfa : graph) (s idx : Nat)
    (hs : s ≤ dfa.heap.length) (hn : (deref dfa s).transitions = none)
    (x : Bool × graph) : addWord fuel dfa s word idx ≠ .ret x := by
  cases fuel with
  | zero => simp [addWord]
  | succ f =>
    rw [addWord]
    cases hc : word[idx]? with
    | none => simp
    | some c =>
      have hg : mapGet (deref dfa s).transitions c = none := by rw [hn]; rfl
      simp only [hg]
      simp [deref_alloc_old dfa s hs, hn, mapSet]

/-- On a well-formed graph `Insert` is the common-prefix walk followed by `addWord`. -/
theorem Insert_eq (dfa : graph) (word : String) (hwf : WF dfa) :
    (commonPrefix dfa (runes word) 0).2 ≤ (runes word).length ∧
    (commonPrefix dfa (runes word) 0).1 ≤ dfa.heap.length ∧
    walk dfa 0 ((runes word).take (commonPrefix dfa (runes word) 0).2) =
      some (commonPrefix dfa (runes word) 0).1 ∧
    (∀ c, (runes word)[(commonPrefix dfa (runes word) 0).2]? = some c →
      mapGet (deref dfa (commonPrefix dfa (runes word) 0).1).transitions c = none) ∧
    Insert dfa word =
      if (runes word).length > (commonPrefix dfa (runes word) 0).2 then
        addWord (2 * (runes word).length) dfa (commonPrefix dfa (runes word) 0).1
          (runes word) (commonPrefix dfa (runes word) 0).2
      else .ret (false, dfa) := by
  obtain ⟨_, h2, h3, h4⟩ := commonPrefixLoop_spec dfa (runes word) 0 ((runes word).length - 0)
    0 0 (Nat.zero_le _) rfl rfl
  change (commonPrefix dfa (runes word) 0).2 ≤ _ at h2
  change walk dfa 0 (List.take (commonPrefix dfa (runes word) 0).2 _) =
    some (commonPrefix dfa (runes word) 0).1 at h3
  change ∀ c, (runes word)[(commonPrefix dfa (runes word) 0).2]? = some c →
    mapGet (deref dfa (commonPrefix dfa (runes word) 0).1).transitions c = none at h4
  have hs : (commonPrefix dfa (runes word) 0).1 ≤ dfa.heap.length :=
    walk_valid hwf _ 0 _ (Nat.zero_le _) h3
  refine ⟨h2, hs, h3, h4, ?_⟩
  unfold Insert
  dsimp only
  have hr : (if len (deref dfa (commonPrefix dfa (runes word) 0).1).transitions > 0 then
      replaceOrRegister (dfa.heap.length + 1) dfa (commonPrefix dfa (runes word) 0).1
      else Result.ret ()) = .ret () := by
    by_cases hp : len (deref dfa (commonPrefix dfa (runes word) 0).1).transitions > 0
    · simp only [hp, if_true]
      exact replaceOrRegister_ret hwf _ _ hs (by omega) hp
    · simp only [hp, if_false]
  rw [hr]

/-- A completed `Insert` on a well-formed graph: either the whole path was there, nothing
changed and false is returned, or true is returned and a fresh chain for the symbols that
were left hangs below the state where the common prefix ended. -/
theorem Insert_ret_cases (dfa : graph) (word : String) (b : Bool) (dfa' : graph)
    (hwf : WF dfa) (h : Insert dfa word = .ret (b, dfa')) :
    (b = false ∧ dfa' = dfa ∧
      (commonPrefix dfa (runes word) 0).2 = (runes word).length ∧
      walk dfa 0 (runes word) = some (commonPrefix dfa (runes word) 0).1) ∨
    (b = true ∧ (commonPrefix dfa (runes word) 0).2 < (runes word).length ∧
      (commonPrefix dfa (runes word) 0).1 ≤ dfa.heap.length ∧
      walk dfa 0 ((runes word).take (commonPrefix dfa (runes word) 0).2) =
        some (commonPrefix dfa (runes word) 0).1 ∧
      Extended dfa dfa' (commonPrefix dfa (runes word) 0).1
        ((runes word).drop (commonPrefix dfa (runes word) 0).2)) := by
  obtain ⟨h2, hs, h3, h4, heq⟩ := Insert_eq dfa word hwf
  rw [heq] at h
  generalize commonPrefix dfa (runes word) 0 = si at h h2 hs h3 h4
  generalize runes word = symbols at h h2 h3 h4
  obtain ⟨s, i⟩ := si
  simp only at h h2 hs h3 h4 ⊢
  by_cases hlt : symbols.length > i
  · simp only [hlt, if_true] at h
    right
    cases hl : (deref dfa s).transitions with
    | none => exact absurd h (addWord_nil_map symbols _ dfa s i hs hl _)
    | some l =>
      have habs : ∀ c, symbols[i]? = some c → l.lookup c = none := by
        intro c hc
        have := h4 c hc
        rw [hl] at this
        exact this
      obtain ⟨hb, hext⟩ :=
        (addWord_setState_frame symbols (2 * symbols.length)).1 dfa s i b dfa' l hs hl habs h
      exact ⟨hb, hlt, hs, h3, hext⟩
  · simp only [hlt, if_false, Result.ret.injEq, Prod.mk.injEq] at h
    obtain ⟨hb, hd⟩ := h
    left
    have hi : i = symbols.length := by omega
    subst hi
    rw [List.take_length] at h3
    exact ⟨hb.symm, hd.symm, rfl, h3⟩

/-! ## States and transitions of an extended graph -/

/-- The transitions of an extended graph: those of the old graph, and one per symbol of
the chain. -/
theorem Extended_entries {dfa dfa' : graph} {s : Nat} {cs : List rune}
    (hs : s ≤ dfa.heap.length) (hext : Extended dfa dfa' s cs) :
    ∀ p, p ≤ dfa'.heap.length → ∀ e ∈ entries (deref dfa' p).transitions,
      (p ≤ dfa.heap.length ∧ e ∈ entries (deref dfa p).transitions) ∨
      (∃ j, j < cs.length ∧ p = (if j = 0 then s else dfa.heap.length + j) ∧
        cs[j]? = some e.1 ∧ e.2 = dfa.heap.length + j + 1) := by
  obtain ⟨l, c, hl, hc0, _, hlen, hold, hds, hchain, hlast⟩ := hext
  have hk : 0 < cs.length := by
    cases cs with
    | nil => simp at hc0
    | cons a t => simp
  intro p hp e he
  by_cases hps : p = s
  · subst hps
    rw [hds] at he
    simp only [entries, List.mem_append, List.mem_singleton] at he
    rcases he with he | he
    · left
      exact ⟨hs, by rw [hl]; exact he⟩
    · right
      subst he
      exact ⟨0, hk, by simp, hc0, rfl⟩
  · by_cases hpo : p ≤ dfa.heap.length
    · left
      rw [hold p hpo hps] at he
      exact ⟨hpo, he⟩
    · right
      have hj : ∃ j, 1 ≤ j ∧ j ≤ cs.length ∧ p = dfa.heap.length + j :=
        ⟨p - dfa.heap.length, by omega, by omega, by omega⟩
      obtain ⟨j, hj1, hjk, hpj⟩ := hj
      subst hpj
      by_cases hjl : j = cs.length
      · subst hjl
        rw [hlast] at he
        simp [entries] at he
      · obtain ⟨c', hc', hd⟩ := hchain j hj1 (by omega)
        rw [hd] at he
        simp only [entries, List.mem_singleton] at he
        subst he
        refine ⟨j, by omega, ?_, hc', rfl⟩
        have : j ≠ 0 := by omega
        simp [this]

/-- Extending keeps the states unshared. -/
theorem Extended_unshared {dfa dfa' : graph} {s : Nat} {cs : List rune}
    (hwf : WF dfa) (hu : Unshared dfa) (hs : s ≤ dfa.heap.length)
    (hext : Extended dfa dfa' s cs) : Unshared dfa' := by
  intro p₁ p₂ hp₁ hp₂ e₁ he₁ e₂ he₂ heq
  rcases Extended_entries hs hext p₁ hp₁ e₁ he₁ with ⟨ho₁, hm₁⟩ | ⟨j₁, hj₁, hpj₁, hc₁, ht₁⟩
  · rcases Extended_entries hs hext p₂ hp₂ e₂ he₂ with ⟨ho₂, hm₂⟩ | ⟨j₂, hj₂, hpj₂, hc₂, ht₂⟩
    · exact hu p₁ p₂ ho₁ ho₂ e₁ hm₁ e₂ hm₂ heq
    · have := ((hwf p₁ ho₁).1 e₁ hm₁).2
      omega
  · rcases Extended_entries hs hext p₂ hp₂ e₂ he₂ with ⟨ho₂, hm₂⟩ | ⟨j₂, hj₂, hpj₂, hc₂, ht₂⟩
    · have := ((hwf p₂ ho₂).1 e₂ hm₂).2
      omega
    · have hjj : j₁ = j₂ := by omega
      subst hjj
      refine ⟨by rw [hpj₁, hpj₂], ?_⟩
      rw [hc₁] at hc₂
      exact Option.some.inj hc₂

/-- Extending leaves no dead end. -/
theorem Extended_nodead {dfa dfa' : graph} {s : Nat} {cs : List rune}
    (hnd : NoDead dfa) (hs : s ≤ dfa.heap.length)
    (hext : Extended dfa dfa' s cs) : NoDead dfa' := by
  obtain ⟨l, c, hl, hc0, _, hlen, hold, hds, hchain, hlast⟩ := hext
  intro p hp1 hp
  by_cases hps : p = s
  · subst hps
    right
    rw [hds]
    simp [len]
  · by_cases hpo : p ≤ dfa.heap.length
    · rw [hold p hpo hps]
      exact hnd p hp1 hpo
    · have hj : ∃ j, 1 ≤ j ∧ j ≤ cs.length ∧ p = dfa.heap.length + j :=
        ⟨p - dfa.heap.length, by omega, by omega, by omega⟩
      obtain ⟨j, hj1, hjk, hpj⟩ := hj
      subst hpj
      by_cases hjl : j = cs.length
      · subst hjl
        left
        rw [hlast]
      · obtain ⟨c', _, hd⟩ := hchain j hj1 (by omega)
        right
        rw [hd]
        simp [len]

theorem Unshared_NewGraph : Unshared NewGraph := by
  intro p₁ p₂ hp₁ _ e₁ he₁
  have hp0 : p₁ = 0 := by simpa [NewGraph] using hp₁
  subst hp0
  simp [NewGraph, deref, entries] at he₁

theorem NoDead_NewGraph : NoDead NewGraph := by
  intro p hp1 hp
  have : p = 0 := by simpa [NewGraph] using hp
  omega

/-- Every graph obtained from `NewGraph()` is well formed, without a shared state and
without a dead end. -/
theorem Reachable_inv {dfa : graph} (h : Reachable dfa) :
    WF dfa ∧ Unshared dfa ∧ NoDead dfa := by
  induction h with
  | new => exact ⟨WF_NewGraph, Unshared_NewGraph, NoDead_NewGraph⟩
  | insert dfa word b dfa' _ hins ih =>
    obtain ⟨hwf, hu, hnd⟩ := ih
    have hwf' := (Insert_path dfa word b dfa' hwf hins).1
    rcases Insert_ret_cases dfa word b dfa' hwf hins with ⟨_, hd, _, _⟩ | ⟨_, _, hs, _, hext⟩
    · subst hd
      exact ⟨hwf, hu, hnd⟩
    · exact ⟨hwf', Extended_unshared hwf hu hs hext, Extended_nodead hnd hs hext⟩
  | delete dfa word _ ih => exact ih

/-- In a graph without shared states a state has one path from the root. -/
theorem walk_unique {dfa : graph} (hwf : WF dfa) (hu : Unshared dfa) :
    ∀ (u v : List rune) (p : Nat),
      walk dfa 0 u = some p → walk dfa 0 v = some p → u = v := by
  intro u
  induction u using List.reverseRecOn with
  | nil =>
    intro v p hu0 hv
    simp only [walk, Option.some.injEq] at hu0
    subst hu0
    rcases List.eq_nil_or_concat v with hv0 | ⟨v', b, hvb⟩
    · exact hv0.symm
    · subst hvb
      rw [List.concat_eq_append, walk_append] at hv
      cases hq : walk dfa 0 v' with
      | none => simp [hq] at hv
      | some q =>
        simp only [hq, Option.some_bind, walk] at hv
        cases hg : mapGet (deref dfa q).transitions b with
        | none => simp [hg] at hv
        | some r =>
          simp only [hg, Option.some.injEq] at hv
          have hq' := walk_valid hwf v' 0 q (Nat.zero_le _) hq
          have := ((hwf q hq').1 _ (mapGet_mem hg)).1
          simp only at this
          omega
  | append_singleton u' a ih =>
    intro v p hu1 hv
    rw [walk_append] at hu1
    cases hq : walk dfa 0 u' with
    | none => simp [hq] at hu1
    | some q =>
      simp only [hq, Option.some_bind, walk] at hu1
      cases hg : mapGet (deref dfa q).transitions a with
      | none => simp [hg] at hu1
      | some r =>
        simp only [hg, Option.some.injEq] at hu1
        subst hu1
        have hq' := walk_valid hwf u' 0 q (Nat.zero_le _) hq
        have hlt := ((hwf q hq').1 _ (mapGet_mem hg)).1
        simp only at hlt
        rcases List.eq_nil_or_concat v with hv0 | ⟨v', b, hvb⟩
        · subst hv0
          simp only [walk, Option.some.injEq] at hv
          omega
        · subst hvb
          rw [List.concat_eq_append] at hv ⊢
          rw [walk_append] at hv
          cases hq₂ : walk dfa 0 v' with
          | none => simp [hq₂] at hv
          | some q₂ =>
            simp only [hq₂, Option.some_bind, walk] at hv
            cases hg₂ : mapGet (deref dfa q₂).transitions b with
            | none => simp [hg₂] at hv
            | some r₂ =>
              simp only [hg₂, Option.some.injEq] at hv
              subst hv
              have hq₂' := walk_valid hwf v' 0 q₂ (Nat.zero_le _) hq₂
              obtain ⟨hqq, hab⟩ := hu q q₂ hq' hq₂' _ (mapGet_mem hg) _ (mapGet_mem hg₂) rfl
              simp only at hab
              subst hqq
              subst hab
              rw [ih v' q hq hq₂]

/-! ## Walks in an extended graph -/

theorem lookup_singleton {a c : rune} {v r : Nat} (h : [(c, v)].lookup a = some r) :
    a = c ∧ r = v := by
  by_cases hac : a = c
  · subst hac
    simp [List.lookup] at h
    exact ⟨rfl, h.symm⟩
  · have hb : (a == c) = false := by simpa using hac
    simp [List.lookup, hb] at h

/-- Extending keeps every state and transition. -/
theorem Extended_keeps {dfa dfa' : graph} {s : Nat} {cs : List rune}
    (hs : s ≤ dfa.heap.length) (hext : Extended dfa dfa' s cs) : Keeps dfa dfa' := by
  obtain ⟨l, c, hl, hc0, _, hlen, hold, hds, hchain, hlast⟩ := hext
  refine ⟨by omega, ?_⟩
  intro p hp k q h
  by_cases hps : p = s
  · subst hps
    rw [hds]
    rw [hl] at h
    simp only [mapGet] at h ⊢
    exact lookup_append_some _ _ h
  · rw [hold p hp hps]
    exact h

/-- Extending changes no final flag of an old state. -/
theorem Extended_final {dfa dfa' : graph} {s : Nat} {cs : List rune}
    (hext : Extended dfa dfa' s cs) :
    ∀ p, p ≤ dfa.heap.length → (deref dfa' p).final = (deref dfa p).final := by
  obtain ⟨l, c, hl, hc0, _, hlen, hold, hds, hchain, hlast⟩ := hext
  intro p hp
  by_cases hps : p = s
  · subst hps
    rw [hds]
  · rw [hold p hp hps]

/-- A transition out of an old state of the extended graph is an old transition, or the
one that leads into the chain. -/
theorem Extended_mapGet {dfa dfa' : graph} {s : Nat} {cs : List rune}
    (hext : Extended dfa dfa' s cs) (p : Nat) (hp : p ≤ dfa.heap.length) (a : rune) (r : Nat)
    (h : mapGet (deref dfa' p).transitions a = some r) :
    mapGet (deref dfa p).transitions a = some r ∨
    (p = s ∧ cs[0]? = some a ∧ r = dfa.heap.length + 1) := by
  obtain ⟨l, c, hl, hc0, _, hlen, hold, hds, hchain, hlast⟩ := hext
  by_cases hps : p = s
  · subst hps
    rw [hds] at h
    simp only [mapGet] at h
    rw [hl]
    simp only [mapGet]
    cases hla : l.lookup a with
    | some r₀ =>
      rw [lookup_append_some _ _ hla] at h
      left
      exact h
    | none =>
      rw [lookup_append_none _ _ hla] at h
      obtain ⟨hac, hr⟩ := lookup_singleton h
      right
      subst hac
      exact ⟨trivial, hc0, hr⟩
  · rw [hold p hp hps] at h
    left
    exact h

/-- A walk that starts in the chain stays in it and spells the symbols of the chain. -/
theorem Extended_chain_walk {dfa dfa' : graph} {s : Nat} {cs : List rune}
    (hext : Extended dfa dfa' s cs) :
    ∀ (v : List rune) (j q : Nat), 1 ≤ j → j ≤ cs.length →
      walk dfa' (dfa.heap.length + j) v = some q →
      q = dfa.heap.length + j + v.length ∧ j + v.length ≤ cs.length ∧
      ∀ i, i < v.length → v[i]? = cs[j + i]? := by
  obtain ⟨l, c, hl, hc0, _, hlen, hold, hds, hchain, hlast⟩ := hext
  intro v
  induction v with
  | nil =>
    intro j q hj1 hjk h
    simp only [walk, Option.some.injEq] at h
    subst h
    refine ⟨rfl, by simpa using hjk, ?_⟩
    intro i hi
    simp at hi
  | cons a v' ih =>
    intro j q hj1 hjk h
    simp only [walk] at h
    by_cases hjl : j = cs.length
    · subst hjl
      rw [hlast] at h
      simp [mapGet] at h
    · obtain ⟨c', hc', hd⟩ := hchain j hj1 (by omega)
      rw [hd] at h
      cases hg : mapGet (some [(c', dfa.heap.length + j + 1)]) a with
      | none => simp [hg] at h
      | some r =>
        simp only [hg] at h
        obtain ⟨hac, hr⟩ := lookup_singleton hg
        subst hac
        subst hr
        obtain ⟨hq, hle, hsp⟩ := ih (j + 1) q (by omega) (by omega) h
        refine ⟨by rw [hq, List.length_cons]; omega, by rw [List.length_cons]; omega, ?_⟩
        intro i hi
        cases i with
        | zero =>
          rw [List.getElem?_cons_zero, Nat.add_zero, hc']
        | succ i =>
          rw [List.getElem?_cons_succ]
          rw [List.length_cons] at hi
          have := hsp i (by omega)
          rw [this]
          congr 1
          omega

/-- A walk of the extended graph from an old state either is a walk of the old graph, or
passes through the state below which the chain hangs and goes on in the chain. -/
theorem Extended_walk {dfa dfa' : graph} {s : Nat} {cs : List rune}
    (hwf : WF dfa) (hext : Extended dfa dfa' s cs) :
    ∀ (u : List rune) (p q : Nat), p ≤ dfa.heap.length → walk dfa' p u = some q →
      (q ≤ dfa.heap.length ∧ walk dfa p u = some q) ∨
      (∃ v a v', u = v ++ a :: v' ∧ cs[0]? = some a ∧ walk dfa p v = some s ∧
        walk dfa' (dfa.heap.length + 1) v' = some q) := by
  intro u
  induction u with
  | nil =>
    intro p q hp h
    simp only [walk, Option.some.injEq] at h
    subst h
    left
    exact ⟨hp, rfl⟩
  | cons a u' ih =>
    intro p q hp h
    simp only [walk] at h
    cases hg : mapGet (deref dfa' p).transitions a with
    | none => simp [hg] at h
    | some r =>
      simp only [hg] at h
      rcases Extended_mapGet hext p hp a r hg with hold | ⟨hps, hc0, hr⟩
      · have hr : r ≤ dfa.heap.length := ((hwf p hp).1 _ (mapGet_mem hold)).2
        rcases ih r q hr h with ⟨hq, hw⟩ | ⟨v, b, v', huv, hb, hw, hw'⟩
        · left
          refine ⟨hq, ?_⟩
          simp only [walk, hold]
          exact hw
        · right
          refine ⟨a :: v, b, v', by rw [huv]; rfl, hb, ?_, hw'⟩
          simp only [walk, hold]
          exact hw
      · right
        subst hr
        exact ⟨[], a, u', rfl, hc0, by rw [hps]; rfl, h⟩

/-- The sequences an extended graph accepts: those the old graph accepts, and the one
that ends at the end of the chain. -/
theorem Extended_accepts {dfa dfa' : graph} {s : Nat} {cs pre : List rune}
    (hwf : WF dfa) (hu : Unshared dfa) (hs : s ≤ dfa.heap.length)
    (hext : Extended dfa dfa' s cs) (hpre : walk dfa 0 pre = some s)
    (hnew : acceptsSeq dfa' (pre ++ cs) = true) :
    ∀ u, acceptsSeq dfa' u = true ↔ (acceptsSeq dfa u = true ∨ u = pre ++ cs) := by
  intro u
  constructor
  · intro h
    unfold acceptsSeq at h
    cases hq : walk dfa' 0 u with
    | none => simp [hq] at h
    | some q =>
      simp only [hq] at h
      rcases Extended_walk hwf hext u 0 q (Nat.zero_le _) hq with
        ⟨hqle, hw⟩ | ⟨v, a, v', huv, ha, hw, hw'⟩
      · left
        unfold acceptsSeq
        rw [hw]
        simp only
        rw [← Extended_final hext q hqle]
        exact h
      · right
        have hv : v = pre := walk_unique hwf hu v pre s hw hpre
        subst hv
        obtain ⟨hqe, hle, hsp⟩ := Extended_chain_walk hext v' 1 q (le_refl _)
          (by
            obtain ⟨l, c, _, hc0, _⟩ := hext
            cases cs with
            | nil => simp at hc0
            | cons x t => simp) hw'
        have hlen : 1 + v'.length = cs.length := by
          by_contra hne
          obtain ⟨l, c, hl, hc0, _, hlen, hold, hds, hchain, hlast⟩ := hext
          obtain ⟨c', _, hd⟩ := hchain (1 + v'.length) (by omega) (by omega)
          have e : dfa.heap.length + 1 + v'.length = dfa.heap.length + (1 + v'.length) := by
            omega
          rw [hqe, e, hd] at h
          simp at h
        have hcs : a :: v' = cs := by
          apply List.ext_getElem?
          intro i
          cases i with
          | zero => rw [List.getElem?_cons_zero, ha]
          | succ i =>
            rw [List.getElem?_cons_succ]
            by_cases hi : i < v'.length
            · rw [hsp i hi]
              congr 1
              omega
            · rw [List.getElem?_eq_none (by omega), List.getElem?_eq_none (by omega)]
        rw [huv, hcs]
  · intro h
    rcases h with h | h
    · unfold acceptsSeq at h ⊢
      cases hq : walk dfa 0 u with
      | none => simp [hq] at h
      | some q =>
        simp only [hq] at h
        have hqle := walk_valid hwf u 0 q (Nat.zero_le _) hq
        rw [walk_mono hwf (Extended_keeps hs hext).2 u 0 q (Nat.zero_le _) hq]
        simp only
        rw [Extended_final hext q hqle]
        exact h
    · rw [h]
      exact hnew

/-- A successful `Insert` adds exactly the word to the accepted set, keeps every state
and transition, and changes no final flag of an old state. -/
theorem Insert_true_accepts (dfa : graph) (word : String) (dfa' : graph)
    (hwf : WF dfa) (hu : Unshared dfa) (h : Insert dfa word = .ret (true, dfa')) :
    (∀ u, acceptsSeq dfa' u = true ↔ (acceptsSeq dfa u = true ∨ u = runes word)) ∧
    Keeps dfa dfa' ∧
    (∀ p, p ≤ dfa.heap.length → (deref dfa' p).final = (deref dfa p).final) := by
  rcases Insert_ret_cases dfa word true dfa' hwf h with ⟨hb, _⟩ | ⟨_, hlt, hs, hpre, hext⟩
  · cases hb
  · obtain ⟨_, last, hwalk, hcase⟩ := Insert_path dfa word true dfa' hwf h
    have hnew : acceptsSeq dfa' (runes word) = true := by
      rcases hcase with ⟨hb, _⟩ | ⟨_, hlast⟩
      · cases hb
      · unfold acceptsSeq
        rw [hwalk]
        simp only
        rw [hlast]
    have hsplit : (runes word).take (commonPrefix dfa (runes word) 0).2 ++
        (runes word).drop (commonPrefix dfa (runes word) 0).2 = runes word :=
      List.take_append_drop _ _
    refine ⟨?_, Extended_keeps hs hext, Extended_final hext⟩
    have := Extended_accepts hwf hu hs hext hpre (by rw [hsplit]; exact hnew)
    rw [hsplit] at this
    exact this

/-! ## More on `Insert`, walks and the trie -/

/-- Below a made map without the next symbol `addWord` does not panic, and neither does
`setState` on a state fresh from `new(state)`. -/
theorem addWord_setState_no_panic (word : List rune) : ∀ fuel : Nat,
    (∀ (dfa : graph) (s idx : Nat) (l : List (rune × Nat)),
      s ≤ dfa.heap.length → idx < word.length → (deref dfa s).transitions = some l →
      (∀ c, word[idx]? = some c → l.lookup c = none) →
      addWord fuel dfa s word idx ≠ .panic) ∧
    (∀ (dfa : graph) (s idx : Nat),
      s ≤ dfa.heap.length → deref dfa s = newState →
      setState fuel dfa s word idx ≠ .panic) := by
  intro fuel
  induction fuel with
  | zero =>
    constructor
    · intro dfa s idx l _ _ _ _
      simp [addWord]
    · intro dfa s idx _ _
      simp [setState]
  | succ fuel ih =>
    obtain ⟨ihA, ihS⟩ := ih
    constructor
    · intro dfa s idx l hs hidx hl habs
      rw [addWord]
      have hc : word[idx]? = some word[idx] := List.getElem?_eq_getElem hidx
      have hlk := habs _ hc
      have hnone : mapGet (deref dfa s).transitions word[idx] = none := by rw [hl]; exact hlk
      simp only [hc, hnone]
      simp only [deref_alloc_old dfa s hs, hl, mapSet, hlk, alloc_fst]
      obtain ⟨hlen₂, hnew₂, _, _⟩ := link_frame dfa s word[idx] l hs hl _ rfl
      rw [deref_alloc_old dfa s hs] at hlen₂ hnew₂
      exact ihS _ (dfa.heap.length + 1) idx (le_of_eq hlen₂.symm) hnew₂
    · intro dfa s idx hs hnew
      rw [setState]
      by_cases hlen : word.length > idx + 1
      · simp only [hlen, if_true, hnew]
        have hz : len newState.transitions = 0 := rfl
        simp only [hz, if_true]
        have hs₁ : s ≤ (store dfa s { newState with transitions := some [] }).heap.length := by
          rw [store_heap_length]; exact hs
        have hd₁ : (deref (store dfa s { newState with transitions := some [] })
            s).transitions = some [] := by
          rw [deref_store_same _ _ _ hs]
        exact ihA _ s (idx + 1) [] hs₁ hlen hd₁ (fun _ _ => rfl)
      · simp only [hlen, if_false]
        simp

/-- With symbols left, `addWord` below a state with a nil map panics. -/
theorem addWord_nil_map_panic (word : List rune) (fuel : Nat) (dfa : graph) (s idx : Nat)
    (hs : s ≤ dfa.heap.length) (hidx : idx < word.length)
    (hn : (deref dfa s).transitions = none) :
    addWord (fuel + 1) dfa s word idx = .panic := by
  rw [addWord]
  have hc : word[idx]? = some word[idx] := List.getElem?_eq_getElem hidx
  have hg : mapGet (deref dfa s).transitions word[idx] = none := by rw [hn]; rfl
  simp only [hc, hg]
  simp [deref_alloc_old dfa s hs, hn, mapSet]

/-- When `Insert` panics: symbols are left where the common prefix ends, and the state
there has a nil map. -/
theorem Insert_panic_iff (dfa : graph) (word : String) (hwf : WF dfa) :
    Insert dfa word = .panic ↔
      ((commonPrefix dfa (runes word) 0).2 < (runes word).length ∧
        (deref dfa (commonPrefix dfa (runes word) 0).1).transitions = none) := by
  obtain ⟨h2, hs, h3, h4, heq⟩ := Insert_eq dfa word hwf
  rw [heq]
  generalize commonPrefix dfa (runes word) 0 = si at h2 hs h3 h4
  generalize runes word = symbols at h2 h3 h4
  obtain ⟨s, i⟩ := si
  simp only at h2 hs h3 h4 ⊢
  by_cases hlt : symbols.length > i
  · simp only [hlt, if_true]
    cases hl : (deref dfa s).transitions with
    | none =>
      obtain ⟨f, hf⟩ : ∃ f, 2 * symbols.length = f + 1 := ⟨2 * symbols.length - 1, by omega⟩
      rw [hf, addWord_nil_map_panic symbols f dfa s i hs hlt hl]
      simp [hlt]
    | some l =>
      have habs : ∀ c, symbols[i]? = some c → l.lookup c = none := by
        intro c hc
        have := h4 c hc
        rw [hl] at this
        exact this
      have := (addWord_setState_no_panic symbols (2 * symbols.length)).1 dfa s i l hs hlt hl habs
      simp [this]
  · simp only [hlt, if_false]
    simp [hlt]

/-- In a well-formed graph a walk leads to states allocated later. -/
theorem walk_ge {dfa : graph} (hwf : WF dfa) (u : List rune) :
    ∀ p q, p ≤ dfa.heap.length → walk dfa p u = some q → p + u.length ≤ q := by
  induction u with
  | nil =>
    intro p q _ h
    simp only [walk, Option.some.injEq] at h
    subst h
    simp
  | cons c u ih =>
    intro p q hp h
    simp only [walk] at h
    cases hg : mapGet (deref dfa p).transitions c with
    | none => simp [hg] at h
    | some r =>
      simp only [hg] at h
      have hr := (hwf p hp).1 _ (mapGet_mem hg)
      simp only at hr
      have := ih r q hr.2 h
      rw [List.length_cons]
      omega

/-- No prefix of the word longer than the common prefix is a path of the graph. -/
theorem walk_beyond_commonPrefix (dfa : graph) (word : List rune) (j : Nat)
    (hj : (commonPrefix dfa word 0).2 < j) (hjl : j ≤ word.length) :
    walk dfa 0 (word.take j) = none := by
  obtain ⟨_, h2, h3, h4⟩ := commonPrefixLoop_spec dfa word 0 (word.length - 0)
    0 0 (Nat.zero_le _) rfl rfl
  change (commonPrefix dfa word 0).2 ≤ _ at h2
  change walk dfa 0 (List.take (commonPrefix dfa word 0).2 _) =
    some (commonPrefix dfa word 0).1 at h3
  change ∀ c, word[(commonPrefix dfa word 0).2]? = some c →
    mapGet (deref dfa (commonPrefix dfa word 0).1).transitions c = none at h4
  generalize commonPrefix dfa word 0 = si at hj h2 h3 h4
  obtain ⟨s, i⟩ := si
  simp only at hj h2 h3 h4
  have hi : i < word.length := by omega
  have hc : word[i]? = some word[i] := List.getElem?_eq_getElem hi
  have hsplit : word.take j = word.take i ++ (word[i] :: (word.take j).drop (i + 1)) := by
    have h1 : (word.take j).take i = word.take i := by
      rw [List.take_take]; congr 1; omega
    have h2' : (word.take j)[i]? = some word[i] := by
      rw [List.getElem?_take_of_lt hj]; exact hc
    rw [← h1, ← drop_of_getElem? h2', List.take_append_drop]
  rw [hsplit, walk_append, h3]
  simp only [Option.some_bind, walk, h4 _ hc]

/-- A run of `Create` calls that stays below the bound hands out consecutive states. -/
theorem createN_ok : ∀ (n c : Nat) (tr : Option (List (Nat × Nat)))
    (fs : Option (List (Nat × Bool))), c + n ≤ 4294967295 →
    createN n ⟨c, tr, fs⟩ = .ret (List.range' c n, ⟨c + n, tr, fs⟩) := by
  intro n
  induction n with
  | zero => intro c tr fs _; rfl
  | succ n ih =>
    intro c tr fs h
    have hm : (c + 1) % 4294967296 = c + 1 := Nat.mod_eq_of_lt (by omega)
    have hz : ¬ (0 = c + 1) := by omega
    simp only [createN, Create, hm, hz, if_false]
    rw [ih (c + 1) tr fs (by omega)]
    simp only [List.range']
    have : c + 1 + n = c + (n + 1) := by omega
    rw [this]

/-- The call of `Create` that would hand out the state `2^32 - 1` panics. -/
theorem createN_panic : ∀ (n c : Nat) (tr : Option (List (Nat × Nat)))
    (fs : Option (List (Nat × Bool))), c + n = 4294967295 →
    createN (n + 1) ⟨c, tr, fs⟩ = .panic := by
  intro n
  induction n with
  | zero =>
    intro c tr fs h
    have hc : c = 4294967295 := by omega
    subst hc
    rw [createN]
    have h0 : Create ⟨4294967295, tr, fs⟩ = .panic := by
      unfold Create
      dsimp only
      rw [if_pos (by norm_num)]
    rw [h0]
  | succ n ih =>
    intro c tr fs h
    have hm : (c + 1) % 4294967296 = c + 1 := Nat.mod_eq_of_lt (by omega)
    have hz : ¬ (0 = c + 1) := by omega
    rw [createN]
    simp only [Create, hm, hz, if_false]
    rw [ih (c + 1) tr fs (by omega)]

/-- After `Add` the pair walks to the new target, and every other key walks as before. -/
theorem Walk_Add (t t' : Trie) (src dst : Nat) (label : rune)
    (h : Add t src label dst = .ret t') :
    Walk t' src label = (dst, true) ∧
    ∀ src' label', makeKey src' label' ≠ makeKey src label →
      Walk t' src' label' = Walk t src' label' := by
  unfold Add at h
  cases htr : t.transitions with
  | none => simp [htr] at h
  | some l =>
    simp only [htr, Result.ret.injEq] at h
    subst h
    constructor
    · simp only [Walk, lookup_putEntry_same]
    · intro src' label' hne
      simp only [Walk, htr, lookup_putEntry_other _ _ _ hne]

/-! ## The claims on totality, minimality, the trie and the effect of `Insert` -/

/-- C11 (code bug): `Insert("x")` followed by `Insert("xy")` on a fresh graph panics: the
common prefix ends in the leaf of "x", whose map is nil, and `addWord` assigns into it.
On every graph obtained from `NewGraph()`, `Insert` panics exactly when symbols are left
where the common prefix ends and the state there has a nil map. -/
theorem Insert_panics_below_leaf :
    (do let r ← Insert NewGraph "x"
        Insert r.2 "xy") = .panic ∧
    ∀ (dfa : graph) (word : String), Reachable dfa →
      (Insert dfa word = .panic ↔
        ((commonPrefix dfa (runes word) 0).2 < (runes word).length ∧
          (deref dfa (commonPrefix dfa (runes word) 0).1).transitions = none)) := by
  refine ⟨by decide!, ?_⟩
  intro dfa word hr
  exact Insert_panic_iff dfa word (Reachable_wf hr)

/-- C12 (code bug): the minimisation that `replaceOrRegister` and `cleanup` announce is
not carried out.  After inserting "ab" and "cb" into a fresh graph the paths of the two
words end in the distinct states 2 and 4, which have the same signature, that of a final
leaf; and in no graph obtained from `NewGraph()` by `Insert` and `Delete` calls is a state
shared: two symbol sequences whose paths from the root end in the same state are equal. -/
theorem equal_signatures_distinct_states :
    insertAll NewGraph ["ab", "cb"] = .ret ([true, true],
      ⟨⟨false, some [(97, 1), (99, 3)]⟩,
        [⟨false, some [(98, 2)]⟩, ⟨true, none⟩, ⟨false, some [(98, 4)]⟩, ⟨true, none⟩]⟩) ∧
    walk ⟨⟨false, some [(97, 1), (99, 3)]⟩,
        [⟨false, some [(98, 2)]⟩, ⟨true, none⟩, ⟨false, some [(98, 4)]⟩, ⟨true, none⟩]⟩
      0 (runes "ab") = some 2 ∧
    walk ⟨⟨false, some [(97, 1), (99, 3)]⟩,
        [⟨false, some [(98, 2)]⟩, ⟨true, none⟩, ⟨false, some [(98, 4)]⟩, ⟨true, none⟩]⟩
      0 (runes "cb") = some 4 ∧
    signature 5 ⟨⟨false, some [(97, 1), (99, 3)]⟩,
        [⟨false, some [(98, 2)]⟩, ⟨true, none⟩, ⟨false, some [(98, 4)]⟩, ⟨true, none⟩]⟩ 2 =
      some (Sig.node true []) ∧
    signature 5 ⟨⟨false, some [(97, 1), (99, 3)]⟩,
        [⟨false, some [(98, 2)]⟩, ⟨true, none⟩, ⟨false, some [(98, 4)]⟩, ⟨true, none⟩]⟩ 4 =
      some (Sig.node true []) ∧
    (2 : Nat) ≠ 4 ∧
    (∀ (dfa : graph) (u v : List rune) (p : Nat), Reachable dfa →
      walk dfa 0 u = some p → walk dfa 0 v = some p → u = v) := by
  refine ⟨by decide!, by decide!, by decide!, by rfl, by rfl, by decide, ?_⟩
  intro dfa u v p hr hu hv
  exact walk_unique (Reachable_inv hr).1 (Reachable_inv hr).2.1 u v p hu hv

/-- C13: on the trie of `New()` every `Walk` fails; on every trie, once `Add(src, l, dst)`
has returned, `Walk(src, l)` returns `dst` and true; and on a trie obtained from `New()`
by `Create` and `Add` calls, `Add` returns. -/
theorem Trie_Add_then_Walk (t : Trie) (src dst : Nat) (label : rune) :
    (∀ s l, Walk New s l = (0, false)) ∧
    (∀ t', Add t src label dst = .ret t' → Walk t' src label = (dst, true)) ∧
    (TrieReachable t →
      ∃ t', Add t src label dst = .ret t' ∧ Walk t' src label = (dst, true)) := by
  refine ⟨fun s l => rfl, fun t' h => (Walk_Add t t' src dst label h).1, ?_⟩
  intro hr
  obtain ⟨l, hl⟩ := TrieReachable_made hr
  have hadd : Add t src label dst =
      .ret { t with transitions := some (putEntry (makeKey src label) dst l) } := by
    unfold Add
    rw [hl]
  exact ⟨_, hadd, (Walk_Add t _ src dst label hadd).1⟩

/-- C14 (code bug): starting from `New()`, the first `k` calls of `Create` return
`0, …, k - 1` for every `k` up to `2^32 - 1`; the call number `2^32`, which would hand out
the state `2^32 - 1`, panics. -/
theorem Create_panics_one_state_early :
    (∀ k, k ≤ 4294967295 →
      createN k New = .ret (List.range k, { New with stateCount := k })) ∧
    Create { New with stateCount := 4294967295 } = .panic ∧
    createN 4294967296 New = .panic := by
  refine ⟨?_, ?_, ?_⟩
  · intro k hk
    have := createN_ok k 0 (some []) (some []) (by omega)
    rw [Nat.zero_add, ← List.range_eq_range'] at this
    exact this
  · unfold Create
    dsimp only
    rw [if_pos (by norm_num [New])]
  · exact createN_panic 4294967295 0 (some []) (some []) (by omega)

/-- C15 (code bug): `Insert("")` returns false and changes nothing, on the fresh graph,
whose root is not final, and on every graph obtained from `NewGraph()`: the root is not
marked final. -/
theorem Insert_empty_word_returns_false :
    Insert NewGraph "" = .ret (false, NewGraph) ∧
    NewGraph.root.final = false ∧
    ∀ dfa, Reachable dfa → Insert dfa "" = .ret (false, dfa) := by
  refine ⟨by decide!, rfl, ?_⟩
  intro dfa hr
  obtain ⟨h2, _, _, _, heq⟩ := Insert_eq dfa "" (Reachable_wf hr)
  rw [heq]
  have hlen : (runes "").length = 0 := rfl
  rw [hlen] at h2 ⊢
  have : ¬ (0 > (commonPrefix dfa (runes "") 0).2) := by omega
  simp only [this, if_false]

/-- C16: in a graph obtained from `NewGraph()` by completed `Insert` and `Delete` calls,
a state reached from the root by one or more transitions is final or has a transition. -/
theorem no_dead_ends (dfa : graph) (u : List rune) (p : Nat)
    (hr : Reachable dfa) (hne : u ≠ []) (hw : walk dfa 0 u = some p) :
    (deref dfa p).final = true ∨ 0 < len (deref dfa p).transitions := by
  obtain ⟨hwf, _, hnd⟩ := Reachable_inv hr
  have hle := walk_valid hwf u 0 p (Nat.zero_le _) hw
  have hge := walk_ge hwf u 0 p (Nat.zero_le _) hw
  have hpos : 0 < u.length := List.length_pos.mpr hne
  exact hnd p (by omega) hle

/-- The witness of C16: the graph that holds "he" and the path of "h". -/
theorem no_dead_ends_witness :
    Reachable ⟨⟨false, some [(104, 1)]⟩, [⟨false, some [(101, 2)]⟩, ⟨true, none⟩]⟩ ∧
    ((deref ⟨⟨false, some [(104, 1)]⟩, [⟨false, some [(101, 2)]⟩, ⟨true, none⟩]⟩ 1).final
        = true ∨
      0 < len (deref ⟨⟨false, some [(104, 1)]⟩,
        [⟨false, some [(101, 2)]⟩, ⟨true, none⟩]⟩ 1).transitions) :=
  have hr : Reachable ⟨⟨false, some [(104, 1)]⟩, [⟨false, some [(101, 2)]⟩, ⟨true, none⟩]⟩ :=
    Reachable.insert NewGraph "he" true _ Reachable.new (by decide!)
  ⟨hr, no_dead_ends _ [104] 1 hr (by decide) (by decide!)⟩

/-- C17: for every graph and word, `commonPrefix(word, 0)` returns a state `s` and an
index `i ≤ len(word)` such that the path of the first `i` symbols exists and ends at `s`,
and either `i = len(word)` or `s` has no transition for the symbol `word[i]`; no longer
prefix of the word is a path.  The function only reads the graph. -/
theorem commonPrefix_longest (dfa : graph) (word : List rune) :
    (commonPrefix dfa word 0).2 ≤ word.length ∧
    walk dfa 0 (word.take (commonPrefix dfa word 0).2) = some (commonPrefix dfa word 0).1 ∧
    ((commonPrefix dfa word 0).2 = word.length ∨
      ∃ c, word[(commonPrefix dfa word 0).2]? = some c ∧
        mapGet (deref dfa (commonPrefix dfa word 0).1).transitions c = none) ∧
    ∀ j, (commonPrefix dfa word 0).2 < j → j ≤ word.length →
      walk dfa 0 (word.take j) = none := by
  obtain ⟨_, h2, h3, h4⟩ := commonPrefixLoop_spec dfa word 0 (word.length - 0)
    0 0 (Nat.zero_le _) rfl rfl
  change (commonPrefix dfa word 0).2 ≤ _ at h2
  change walk dfa 0 (List.take (commonPrefix dfa word 0).2 _) =
    some (commonPrefix dfa word 0).1 at h3
  change ∀ c, word[(commonPrefix dfa word 0).2]? = some c →
    mapGet (deref dfa (commonPrefix dfa word 0).1).transitions c = none at h4
  refine ⟨h2, h3, ?_, fun j hj hjl => walk_beyond_commonPrefix dfa word j hj hjl⟩
  by_cases hlt : (commonPrefix dfa word 0).2 < word.length
  · right
    exact ⟨_, List.getElem?_eq_getElem hlt, h4 _ (List.getElem?_eq_getElem hlt)⟩
  · left
    omega

/-- For `uint32` states and `int32` labels, the lower 32 bits of the key are the label's
32-bit value, and the upper 32 bits are the state when the label is not negative;
`makeKey` is injective for all labels; and `Add(src, l, dst)` leaves `Walk` as it was for
every other pair. -/
theorem makeKey_layout_and_frame (t : Trie) (s₁ s₂ dst : Nat) (l₁ l₂ : Int)
    (hs₁ : s₁ < 4294967296) (hs₂ : s₂ < 4294967296)
    (h₁ : -2147483648 ≤ l₁ ∧ l₁ < 2147483648) (h₂ : -2147483648 ≤ l₂ ∧ l₂ < 2147483648) :
    (0 ≤ l₁ → makeKey s₁ l₁ / 4294967296 = s₁) ∧
    ((makeKey s₁ l₁ : Int) % 4294967296 = l₁ % 4294967296) ∧
    (makeKey s₁ l₁ = makeKey s₂ l₂ → s₁ = s₂ ∧ l₁ = l₂) ∧
    ((s₂, l₂) ≠ (s₁, l₁) → ∀ t', Add t s₁ l₁ dst = .ret t' →
      Walk t' s₂ l₂ = Walk t s₂ l₂) := by
  refine ⟨fun h0 => (makeKey_split s₁ l₁ hs₁ h0 h₁.2).1, ?_,
    makeKey_injective s₁ s₂ l₁ l₂ hs₁ hs₂ h₁ h₂, ?_⟩
  · have h := makeKey_eq s₁ l₁ hs₁ h₁.1 h₁.2
    rw [h]
    split
    · omega
    · split <;> omega
  · intro hne t' hadd
    apply (Walk_Add t t' s₁ dst l₁ hadd).2
    intro hk
    obtain ⟨hs, hl⟩ := makeKey_injective s₂ s₁ l₂ l₁ hs₂ hs₁ h₂ h₁ hk
    exact hne (by rw [hs, hl])

/-- C18 (code bug): `makeKey` is not the concatenation of state and label that its
comment announces.  For the state 1 and the label -1, a `uint32` and an `int32`, the key is
`2^32 - 1`: its upper 32 bits are 0, not the state 1, and it is not the concatenation
`1 * 2^32 + (2^32 - 1)`.  `Add(1, -1, 7)` on the trie of `New()` files the transition under
that key, and `Walk(1, -1)` finds it there. -/
theorem makeKey_negative_label :
    makeKey 1 (-1) = 4294967295 ∧ makeKey 1 (-1) / 4294967296 = 0 ∧
    makeKey 1 (-1) % 4294967296 = 4294967295 ∧
    makeKey 1 (-1) ≠ 1 * 4294967296 + 4294967295 ∧
    Add New 1 (-1) 7 = .ret ⟨0, some [(4294967295, 7)], some []⟩ ∧
    Walk ⟨0, some [(4294967295, 7)], some []⟩ 1 (-1) = (7, true) := by
  refine ⟨by decide!, by decide!, by decide!, by decide!, by decide!, by decide!⟩

/-- C19: on a graph obtained from `NewGraph()`, a completed `Insert(w)` returns true
exactly when the full path of `w` did not exist before the call (the common prefix is
shorter than `w`), and false exactly when it existed, whatever the final flag of the
state it reaches. -/
theorem Insert_true_iff_no_path (dfa : graph) (word : String) (b : Bool) (dfa' : graph)
    (hr : Reachable dfa) (h : Insert dfa word = .ret (b, dfa')) :
    (b = true ↔ walk dfa 0 (runes word) = none) ∧
    (b = true ↔ (commonPrefix dfa (runes word) 0).2 < (runes word).length) ∧
    (b = false ↔ ∃ p, walk dfa 0 (runes word) = some p) := by
  rcases Insert_ret_cases dfa word b dfa' (Reachable_wf hr) h with
    ⟨hb, _, hi, hw⟩ | ⟨hb, hlt, _, _, _⟩
  · subst hb
    refine ⟨by simp [hw], by simp [hi], by simp [hw]⟩
  · subst hb
    have hnone : walk dfa 0 (runes word) = none := by
      have := walk_beyond_commonPrefix dfa (runes word) (runes word).length hlt (le_refl _)
      rwa [List.take_length] at this
    refine ⟨by simp [hnone], by simp [hlt], by simp [hnone]⟩

/-- The witness of C19: "h" inserted into the graph that holds "he" returns false; its
path exists and ends in a state that is not final. -/
theorem Insert_true_iff_no_path_witness :
    Reachable ⟨⟨false, some [(104, 1)]⟩, [⟨false, some [(101, 2)]⟩, ⟨true, none⟩]⟩ ∧
    Insert ⟨⟨false, some [(104, 1)]⟩, [⟨false, some [(101, 2)]⟩, ⟨true, none⟩]⟩ "h" =
      .ret (false, ⟨⟨false, some [(104, 1)]⟩, [⟨false, some [(101, 2)]⟩, ⟨true, none⟩]⟩) ∧
    (deref ⟨⟨false, some [(104, 1)]⟩, [⟨false, some [(101, 2)]⟩, ⟨true, none⟩]⟩ 1).final
      = false ∧
    ∃ p, walk ⟨⟨false, some [(104, 1)]⟩, [⟨false, some [(101, 2)]⟩, ⟨true, none⟩]⟩ 0
      (runes "h") = some p :=
  have hr : Reachable ⟨⟨false, some [(104, 1)]⟩, [⟨false, some [(101, 2)]⟩, ⟨true, none⟩]⟩ :=
    Reachable.insert NewGraph "he" true _ Reachable.new (by decide!)
  ⟨hr, by decide!, by decide!,
    (Insert_true_iff_no_path
      ⟨⟨false, some [(104, 1)]⟩, [⟨false, some [(101, 2)]⟩, ⟨true, none⟩]⟩ "h" false
      ⟨⟨false, some [(104, 1)]⟩, [⟨false, some [(101, 2)]⟩, ⟨true, none⟩]⟩
      hr (by decide!)).2.2.mp rfl⟩

/-- C20: on a graph obtained from `NewGraph()`, when `Insert(w)` returns true the
accepted sequences afterwards are those accepted before and `w`; every state and
transition is kept, and no final flag of an old state changes. -/
theorem Insert_true_adds_the_word (dfa : graph) (word : String) (dfa' : graph)
    (hr : Reachable dfa) (h : Insert dfa word = .ret (true, dfa')) :
    (∀ u, acceptsSeq dfa' u = true ↔ (acceptsSeq dfa u = true ∨ u = runes word)) ∧
    Keeps dfa dfa' ∧
    (∀ p, p ≤ dfa.heap.length → (deref dfa' p).final = (deref dfa p).final) :=
  Insert_true_accepts dfa word dfa' (Reachable_inv hr).1 (Reachable_inv hr).2.1 h

/-- The witness of C20: "hi" inserted into the graph that holds "he". -/
theorem Insert_true_adds_the_word_witness :
    Reachable ⟨⟨false, some [(104, 1)]⟩, [⟨false, some [(101, 2)]⟩, ⟨true, none⟩]⟩ ∧
    acceptsSeq ⟨⟨false, some [(104, 1)]⟩,
        [⟨false, some [(101, 2), (105, 3)]⟩, ⟨true, none⟩, ⟨true, none⟩]⟩ (runes "hi") = true ∧
    acceptsSeq ⟨⟨false, some [(104, 1)]⟩,
        [⟨false, some [(101, 2), (105, 3)]⟩, ⟨true, none⟩, ⟨true, none⟩]⟩ (runes "he") = true :=
  have hr : Reachable ⟨⟨false, some [(104, 1)]⟩, [⟨false, some [(101, 2)]⟩, ⟨true, none⟩]⟩ :=
    Reachable.insert NewGraph "he" true _ Reachable.new (by decide!)
  have h := Insert_true_adds_the_word
    ⟨⟨false, some [(104, 1)]⟩, [⟨false, some [(101, 2)]⟩, ⟨true, none⟩]⟩ "hi"
    ⟨⟨false, some [(104, 1)]⟩,
      [⟨false, some [(101, 2), (105, 3)]⟩, ⟨true, none⟩, ⟨true, none⟩]⟩ hr (by decide!)
  ⟨hr, (h.1 _).mpr (Or.inr rfl), (h.1 _).mpr (Or.inl (by decide!))⟩

end Lexicos
